import Mathlib

/-!
Verification development for the viv_script compiler front-end and middle-end
(tokenizer, parser, type-directed resolver, LLVM-style code generator).

The Rust sources embedded here:
  - src/parsing/tokens.rs   (tokenizer)
  - src/parsing/parser.rs   (recursive-descent, precedence-climbing parser)
  - src/parsing/ast.rs      (surface AST)
  - src/ir.rs               (typed IR)
  - src/type_analyzer.rs    (resolver)
  - src/code_gen.rs         (code generator, built on the inkwell LLVM builder)

Modelling conventions:
  - Machine integers (`i32` literals, `usize` counters) are `Int`/`Nat` with
    explicit range checks where the source checks (or fails to check) them.
  - Rust panics (`unwrap()` on `None`/`Err`, out-of-bounds indexing) are a
    dedicated error constructor, distinct from the user-facing error types.
  - `Vec` used as a stack (push at the end, read via `last()`) is a `List`
    with the top element at the HEAD, so `push` is `cons` and `last()` is
    the head of the list.
  - `HashMap::insert`/`get` is an association list updated by `cons` and
    read by first-match lookup, which is observationally the insert/get
    behaviour of a map.
-/

namespace VivScript

/-! ## Tokens (src/parsing/tokens.rs)

`TokenType` lists the token kinds declared in tokens.rs.  The parser in
parser.rs additionally pattern-matches on `Let` and `Set` keyword tokens
(statement grammar `let IDENT = expr;` / `set IDENT = expr;`), so those two
constructors are included here as well; note that tokens.rs itself neither
declares them nor ever produces them. -/

inductive TokenType where
  | Integer (value : Int)
  | Identifier (name : String)
  | Str (value : String)
  | Print
  | SemiColon
  | Dollar
  | CurlyOpen
  | CurlyClose
  | ParenOpen
  | ParenClose
  | Comma
  | True
  | False
  | Assert
  | Eq
  | Bang
  | EqEq
  | BangEq
  | Lt
  | Gt
  | GtEq
  | LtEq
  | Minus
  | Plus
  | Star
  | Slash
  | AndAnd
  | OrOr
  | Or
  | And
  | Let
  | Set
  | Eof
  deriving DecidableEq, Repr

structure Token where
  ttype : TokenType
  line : Nat
  char : Nat
  deriving DecidableEq, Repr

/-- Failure modes of the tokenizer.  `tokenizerError` is the user-facing
`TokenizerError {line, char, message}`.  `intParseAbort` models the process
abort caused by `number.parse().unwrap()` in `consume_number` when the digit
string does not fit in an `i32`: a panic, not a `TokenizerError`.  `fuelOut`
is an artifact of the fuel-indexed main loop below; the Rust loop consumes at
least one character per iteration, and `tokenize` supplies one unit of fuel
per character plus one, so this case is never reached from `tokenize`'s
entry point (no theorem relies on it). -/
inductive TokFail where
  | tokenizerError (line : Nat) (char : Nat) (message : String)
  | intParseAbort
  | fuelOut
  deriving DecidableEq, Repr

/-- Rust `char::is_ascii_whitespace`: space, horizontal tab, newline,
form feed, carriage return. -/
def isAsciiWhitespace (c : Char) : Bool :=
  c = ' ' || c = '\t' || c = '\n' || c = '\x0C' || c = '\r'

/-- Rust `char::is_ascii_digit`. -/
def isAsciiDigit (c : Char) : Bool :=
  '0' ≤ c && c ≤ '9'

/-- Rust `char::is_ascii_alphabetic`. -/
def isAsciiAlphabetic (c : Char) : Bool :=
  ('a' ≤ c && c ≤ 'z') || ('A' ≤ c && c ≤ 'Z')

/-- Rust `char::is_ascii_alphanumeric`. -/
def isAsciiAlphanumeric (c : Char) : Bool :=
  isAsciiDigit c || isAsciiAlphabetic c

/-- Position bookkeeping of `Tokenizer::advance`: consuming a newline resets
the column to 1 and increments the line; any other character increments the
column.  Arguments are the remaining code, line and column. -/
def bumpPos (c : Char) (line ch : Nat) : Nat × Nat :=
  if c = '\n' then (line + 1, 1) else (line, ch + 1)

/-- `Tokenizer::consume_number`'s digit-collecting loop: consume the maximal
ASCII-digit prefix.  Returns the digits and the rest of the state; a digit is
never a newline, so the column just increments. -/
def consumeNumberAux : List Char → Nat → Nat → List Char × List Char × Nat × Nat
  | c :: rest, line, ch =>
      if isAsciiDigit c then
        let r := consumeNumberAux rest line (ch + 1)
        (c :: r.1, r.2)
      else ([], c :: rest, line, ch)
  | [], line, ch => ([], [], line, ch)

/-- Numeric value of a decimal digit string (what `str::parse::<i32>` computes
when it succeeds). -/
def digitsToNat (ds : List Char) : Nat :=
  ds.foldl (fun acc c => acc * 10 + (c.toNat - '0'.toNat)) 0

/-- Largest `i32`: `str::parse::<i32>` fails on any digit string whose value
exceeds this bound. -/
def i32Max : Nat := 2147483647

/-- `Tokenizer::consume_number`: collect the maximal digit prefix and parse it
with `number.parse().unwrap()`.  The `unwrap` panics (modelled as
`TokFail.intParseAbort`) when the value exceeds `i32Max`; otherwise the token
is `Integer` with exactly the parsed value, positioned at the tokenizer's
line/column after the digits. -/
def consumeNumber (code : List Char) (line ch : Nat) :
    Except TokFail (Token × List Char × Nat × Nat) :=
  let r := consumeNumberAux code line ch
  let n := digitsToNat r.1
  if n ≤ i32Max then
    .ok (⟨.Integer (Int.ofNat n), r.2.2.1, r.2.2.2⟩, r.2)
  else
    .error .intParseAbort

/-- `Tokenizer::consume_identifier`'s collecting loop: consume the maximal
ASCII-alphanumeric prefix (alphanumerics are never newlines). -/
def consumeIdentifierAux : List Char → Nat → Nat → List Char × List Char × Nat × Nat
  | c :: rest, line, ch =>
      if isAsciiAlphanumeric c then
        let r := consumeIdentifierAux rest line (ch + 1)
        (c :: r.1, r.2)
      else ([], c :: rest, line, ch)
  | [], line, ch => ([], [], line, ch)

/-- Keyword table of `Tokenizer::consume_identifier`: only `print`, `true`,
`false` and `assert` are mapped to keyword tokens; every other spelling —
including `let` and `set` — becomes a plain `Identifier`. -/
def keywordLookup (identifier : String) : TokenType :=
  match identifier with
  | "print" => .Print
  | "true" => .True
  | "false" => .False
  | "assert" => .Assert
  | _ => .Identifier identifier

/-- `Tokenizer::consume_identifier`. -/
def consumeIdentifier (code : List Char) (line ch : Nat) :
    Token × List Char × Nat × Nat :=
  let r := consumeIdentifierAux code line ch
  (⟨keywordLookup (String.mk r.1), r.2.2.1, r.2.2.2⟩, r.2)

/-- `Tokenizer::consume_whitespace`: skip the maximal ASCII-whitespace prefix,
updating line/column per character. -/
def consumeWhitespace : List Char → Nat → Nat → List Char × Nat × Nat
  | c :: rest, line, ch =>
      if isAsciiWhitespace c then
        let p := bumpPos c line ch
        consumeWhitespace rest p.1 p.2
      else (c :: rest, line, ch)
  | [], line, ch => ([], line, ch)

/-- `Tokenizer::consume_comment`: consume up to and including the next
newline (or to end of input). -/
def consumeComment : List Char → Nat → Nat → List Char × Nat × Nat
  | c :: rest, line, ch =>
      if c = '\n' then (rest, line + 1, 1)
      else consumeComment rest line (ch + 1)
  | [], line, ch => ([], line, ch)

/-- Loop of `Tokenizer::consume_string` (the opening quote is already
consumed by the caller): collect characters until the closing quote; a
newline inside the string or end of input is a `TokenizerError` raised at the
position before consuming the offending character. -/
def consumeStringAux : List Char → Nat → Nat → Except TokFail (List Char × List Char × Nat × Nat)
  | c :: rest, line, ch =>
      if c = '"' then .ok ([], rest, line, ch + 1)
      else if c = '\n' then .error (.tokenizerError line ch "Unexpected newline in string")
      else
        match consumeStringAux rest line (ch + 1) with
        | .ok r => .ok (c :: r.1, r.2)
        | .error e => .error e
  | [], line, ch => .error (.tokenizerError line ch "Unexpected end of file")

/-- `Tokenizer::consume_string`: void the opening quote, then run the loop;
the `String` token is positioned after the closing quote. -/
def consumeString (code : List Char) (line ch : Nat) :
    Except TokFail (Token × List Char × Nat × Nat) :=
  match consumeStringAux code.tail line (ch + 1) with
  | .ok r => .ok (⟨.Str (String.mk r.1), r.2.2.1, r.2.2.2⟩, r.2)
  | .error e => .error e

/-- `Tokenizer::consume_double_symbol`: void the first symbol character
(never a newline), then emit the two-character token when the next character
matches, else the single-character token. -/
def consumeDoubleSymbol (code : List Char) (line ch : Nat)
    (nextChar : Char) (single double : TokenType) : Token × List Char × Nat × Nat :=
  let rest := code.tail
  let ch1 := ch + 1
  match rest with
  | c :: rest2 =>
      if c = nextChar then (⟨double, line, ch1 + 1⟩, rest2, line, ch1 + 1)
      else (⟨single, line, ch1⟩, c :: rest2, line, ch1)
  | [] => (⟨single, line, ch1⟩, [], line, ch1)

/-- Single-character punctuation recognized by the default arm of
`Tokenizer::tokenize` (after the character has been consumed); `none` is the
`Unexpected character` error path. -/
def punctToken (c : Char) : Option TokenType :=
  if c = ';' then some .SemiColon
  else if c = '$' then some .Dollar
  else if c = ',' then some .Comma
  else if c = '\x7b' then some .CurlyOpen
  else if c = '\x7d' then some .CurlyClose
  else if c = '(' then some .ParenOpen
  else if c = ')' then some .ParenClose
  else if c = '-' then some .Minus
  else if c = '+' then some .Plus
  else if c = '*' then some .Star
  else if c = '/' then some .Slash
  else none

/-- Main loop of `Tokenizer::tokenize`: dispatch on the peeked character in
the source's match order (`#` comment, `"` string, digit, alphabetic,
whitespace, the six two-character lookahead operators, then the default arm
that consumes the character and matches punctuation or fails).  When the
input is exhausted the terminal `Eof` token is appended.  The loop is indexed
by fuel; every iteration of the Rust loop consumes at least one character, so
the fuel supplied by `tokenize` never runs out. -/
def tokenizeGo : Nat → List Char → Nat → Nat → List Token → Except TokFail (List Token)
  | 0, _, _, _, _ => .error .fuelOut
  | _ + 1, [], line, ch, tokens => .ok (tokens ++ [⟨.Eof, line, ch⟩])
  | fuel + 1, c :: rest, line, ch, tokens =>
      if c = '#' then
        let r := consumeComment (c :: rest) line ch
        tokenizeGo fuel r.1 r.2.1 r.2.2 tokens
      else if c = '"' then
        match consumeString (c :: rest) line ch with
        | .ok (tok, r) => tokenizeGo fuel r.1 r.2.1 r.2.2 (tokens ++ [tok])
        | .error e => .error e
      else if isAsciiDigit c then
        match consumeNumber (c :: rest) line ch with
        | .ok (tok, r) => tokenizeGo fuel r.1 r.2.1 r.2.2 (tokens ++ [tok])
        | .error e => .error e
      else if isAsciiAlphabetic c then
        let r := consumeIdentifier (c :: rest) line ch
        tokenizeGo fuel r.2.1 r.2.2.1 r.2.2.2 (tokens ++ [r.1])
      else if isAsciiWhitespace c then
        let r := consumeWhitespace (c :: rest) line ch
        tokenizeGo fuel r.1 r.2.1 r.2.2 tokens
      else if c = '=' then
        let r := consumeDoubleSymbol (c :: rest) line ch '=' .Eq .EqEq
        tokenizeGo fuel r.2.1 r.2.2.1 r.2.2.2 (tokens ++ [r.1])
      else if c = '!' then
        let r := consumeDoubleSymbol (c :: rest) line ch '=' .Bang .BangEq
        tokenizeGo fuel r.2.1 r.2.2.1 r.2.2.2 (tokens ++ [r.1])
      else if c = '<' then
        let r := consumeDoubleSymbol (c :: rest) line ch '=' .Lt .LtEq
        tokenizeGo fuel r.2.1 r.2.2.1 r.2.2.2 (tokens ++ [r.1])
      else if c = '>' then
        let r := consumeDoubleSymbol (c :: rest) line ch '=' .Gt .GtEq
        tokenizeGo fuel r.2.1 r.2.2.1 r.2.2.2 (tokens ++ [r.1])
      else if c = '&' then
        let r := consumeDoubleSymbol (c :: rest) line ch '&' .And .AndAnd
        tokenizeGo fuel r.2.1 r.2.2.1 r.2.2.2 (tokens ++ [r.1])
      else if c = '|' then
        let r := consumeDoubleSymbol (c :: rest) line ch '|' .Or .OrOr
        tokenizeGo fuel r.2.1 r.2.2.1 r.2.2.2 (tokens ++ [r.1])
      else
        let p := bumpPos c line ch
        match punctToken c with
        | some tt => tokenizeGo fuel rest p.1 p.2 (tokens ++ [⟨tt, p.1, p.2⟩])
        | none => .error (.tokenizerError p.1 p.2 ("Unexpected character: " ++ c.toString))

/-- `Tokenizer::tokenize` entry point on a source string, starting at line 1,
column 1. -/
def tokenize (source : String) : Except TokFail (List Token) :=
  tokenizeGo (source.length + 1) source.toList 1 1 []

example :
    tokenize "print 5;"
      = .ok [⟨.Print, 1, 6⟩, ⟨.Integer 5, 1, 8⟩, ⟨.SemiColon, 1, 9⟩, ⟨.Eof, 1, 9⟩] := rfl

/-! ## Surface AST (src/parsing/ast.rs)

ast.rs as shipped declares `Statement` with only the `Print` and `Assert`
variants and `Literal` with only `Integer` and `Boolean`; parser.rs
constructs `Statement::Declaration`, `Statement::Assignment` and
`Literal::Variable`, and type_analyzer.rs consumes all of them, so those
variants are included here. -/

namespace ast

inductive PrefixOp where
  | Negate
  | Not
  deriving DecidableEq, Repr

inductive BinaryOp where
  | Plus
  | Minus
  | Multiply
  | Divide
  | And
  | Or
  deriving DecidableEq, Repr

inductive ComparisonOp where
  | Equals
  | NotEquals
  | LessThan
  | LessThanEquals
  | GreaterThan
  | GreaterThanEquals
  deriving DecidableEq, Repr

inductive Literal where
  | Integer (value : Int)
  | Boolean (value : Bool)
  | Variable (name : String)
  deriving DecidableEq, Repr

inductive Expression where
  | Literal (lit : Literal)
  | BinaryOp (left : Expression) (op : BinaryOp) (right : Expression)
  | Prefix (op : PrefixOp) (operand : Expression)
  | Comparison (left : Expression) (chains : List (ComparisonOp × Expression))
  deriving Repr

inductive Statement where
  | Print (e : Expression)
  | Assert (e : Expression) (message : Option String)
  | Declaration (name : String) (e : Expression)
  | Assignment (name : String) (e : Expression)
  deriving Repr

inductive ToplevelStatement where
  | MainFunction (statements : List Statement)
  deriving Repr

/-- `pub struct Module(pub Vec<ToplevelStatement>);` -/
structure Module where
  statements : List ToplevelStatement
  deriving Repr

end ast

/-! ## Parser (src/parsing/parser.rs) -/

/-- Error results of the parser.  `parsingError` is the user-facing
`ParsingError {line, char, got, expected}`.  `endOfTokens` models the
`anyhow` context error `"Unexpected End of Tokens"` that `Parser::peek` and
`Parser::advance` attach to a `StreamerError` when the token stream is
exhausted — a kind distinct from `ParsingError`.  `fuelOut` is an artifact of
the fuel-indexed loops below, never reached for the fuel `parseModule`
supplies; no theorem relies on it. -/
inductive ParseErr where
  | parsingError (line : Nat) (char : Nat) (got : TokenType) (expected : String)
  | endOfTokens
  | fuelOut
  deriving DecidableEq, Repr

/-- Discriminator for the user-facing `ParsingError` kind. -/
def ParseErr.isParsingError : ParseErr → Bool
  | .parsingError _ _ _ _ => true
  | _ => false

/-- `Parser::peek`: the head of the token stream, or the internal
out-of-tokens error. -/
def peekT : List Token → Except ParseErr TokenType
  | [] => .error .endOfTokens
  | t :: _ => .ok t.ttype

/-- `Parser::advance`: pop the head of the token stream, or the internal
out-of-tokens error. -/
def advanceT : List Token → Except ParseErr (Token × List Token)
  | [] => .error .endOfTokens
  | t :: rest => .ok (t, rest)

/-- The free function `error(got, expected)` in parser.rs. -/
def perror (got : Token) (expected : String) : ParseErr :=
  .parsingError got.line got.char got.ttype expected

/-- `Parser::expect`: advance and compare against the expected token,
failing with a `ParsingError` whose expected-field is the token's debug
rendering. -/
def expectT (expected : TokenType) (ts : List Token) :
    Except ParseErr (TokenType × List Token) := do
  let (token, ts') ← advanceT ts
  if token.ttype = expected then .ok (token.ttype, ts')
  else .error (perror token (reprStr expected))

/-- `Parser::literal`. -/
def literalT (ts : List Token) : Except ParseErr (ast.Literal × List Token) := do
  let (token, ts') ← advanceT ts
  match token.ttype with
  | .Integer i => .ok (.Integer i, ts')
  | .True => .ok (.Boolean true, ts')
  | .False => .ok (.Boolean false, ts')
  | .Identifier name => .ok (.Variable name, ts')
  | _ => .error (perror token "Literal")

/-- The `OperatorType` enum of parser.rs. -/
inductive OperatorType where
  | Binary (mappings : List (TokenType × ast.BinaryOp))
  | Prefix (token : TokenType) (op : ast.PrefixOp)
  | Comparison (comparisons : List (TokenType × ast.ComparisonOp))

/-- The `OPERATORS` precedence table of parser.rs, tightest-binding level
last (index 0 is tried first). -/
def OPERATORS : List OperatorType := [
  .Prefix .Bang .Not,
  .Binary [(.AndAnd, .And), (.OrOr, .Or)],
  .Comparison [(.EqEq, .Equals), (.BangEq, .NotEquals), (.Lt, .LessThan),
               (.LtEq, .LessThanEquals), (.Gt, .GreaterThan), (.GtEq, .GreaterThanEquals)],
  .Binary [(.Plus, .Plus), (.Minus, .Minus)],
  .Binary [(.Star, .Multiply), (.Slash, .Divide)],
  .Prefix .Minus .Negate
]

/-- `Parser::group`, parameterized by the parse of a nested full expression
(`Parser::expression`, i.e. precedence level 0). -/
def groupT (expr0 : List Token → Except ParseErr (ast.Expression × List Token))
    (ts : List Token) : Except ParseErr (ast.Expression × List Token) := do
  let t ← peekT ts
  if t = .ParenOpen then do
    let (e, ts1) ← expr0 ts.tail
    let (_, ts2) ← expectT .ParenClose ts1
    .ok (e, ts2)
  else do
    let (lit, ts') ← literalT ts
    .ok (.Literal lit, ts')

/-- The comparison-chain loop inside `Parser::expression_precedence`:
greedily consume `(operator, operand)` pairs, `sub` being the parse at the
next tighter precedence level.  Fuel-indexed; one unit per consumed pair. -/
def comparisonLoop (sub : List Token → Except ParseErr (ast.Expression × List Token))
    (comparisons : List (TokenType × ast.ComparisonOp)) :
    Nat → List Token → Except ParseErr (List (ast.ComparisonOp × ast.Expression) × List Token)
  | 0, _ => .error .fuelOut
  | fuel + 1, ts => do
      let token ← peekT ts
      match comparisons.find? (fun p => p.1 = token) with
      | some p => do
          let (e, ts') ← sub ts.tail
          let (restChains, ts'') ← comparisonLoop sub comparisons fuel ts'
          .ok ((p.2, e) :: restChains, ts'')
      | none => .ok ([], ts)

/-- The left-associative binary loop inside `Parser::expression_precedence`,
`sub` being the parse at the next tighter precedence level. -/
def binaryLoop (sub : List Token → Except ParseErr (ast.Expression × List Token))
    (mappings : List (TokenType × ast.BinaryOp)) :
    Nat → ast.Expression → List Token → Except ParseErr (ast.Expression × List Token)
  | 0, _, _ => .error .fuelOut
  | fuel + 1, leftSide, ts => do
      let token ← peekT ts
      match mappings.find? (fun p => p.1 = token) with
      | some p => do
          let (rightSide, ts') ← sub ts.tail
          binaryLoop sub mappings fuel (.BinaryOp leftSide p.2 rightSide) ts'
      | none => .ok (leftSide, ts)

/-- `Parser::expression_precedence`: the single recursive procedure indexed
by precedence level.  Past the end of the `OPERATORS` table it parses a
primary via `group`; a `Prefix` level recurses at the same level after its
token, a `Comparison` level parses a left operand one level tighter and then
greedily consumes a chain, a `Binary` level parses a left operand one level
tighter and folds left-associatively. -/
def expressionPrecedence : Nat → Nat → List Token → Except ParseErr (ast.Expression × List Token)
  | 0, _, _ => .error .fuelOut
  | fuel + 1, precedence, ts =>
      match OPERATORS.get? precedence with
      | none => groupT (expressionPrecedence fuel 0) ts
      | some (.Prefix token op) => do
          let t ← peekT ts
          if t = token then do
            let (e, ts') ← expressionPrecedence fuel precedence ts.tail
            .ok (.Prefix op e, ts')
          else expressionPrecedence fuel (precedence + 1) ts
      | some (.Comparison comparisons) => do
          let (leftSide, ts1) ← expressionPrecedence fuel (precedence + 1) ts
          let (chains, ts2) ← comparisonLoop (expressionPrecedence fuel (precedence + 1))
            comparisons fuel ts1
          if chains.isEmpty then .ok (leftSide, ts2)
          else .ok (.Comparison leftSide chains, ts2)
      | some (.Binary mappings) => do
          let (leftSide, ts1) ← expressionPrecedence fuel (precedence + 1) ts
          binaryLoop (expressionPrecedence fuel (precedence + 1)) mappings fuel leftSide ts1

/-- `Parser::expression`: parse at precedence level 0. -/
def expressionT (fuel : Nat) (ts : List Token) : Except ParseErr (ast.Expression × List Token) :=
  expressionPrecedence fuel 0 ts

/-- Body shared by the `Let` and `Set` arms of `Parser::statement`. -/
def parseLetSet (fuel : Nat) (keyword : TokenType) (ts : List Token) :
    Except ParseErr (ast.Statement × List Token) := do
  let (identifier, ts1) ← advanceT ts
  match identifier.ttype with
  | .Identifier name => do
      let (_, ts2) ← expectT .Eq ts1
      let (e, ts3) ← expressionT fuel ts2
      let (_, ts4) ← expectT .SemiColon ts3
      match keyword with
      | .Let => .ok (.Declaration name e, ts4)
      | _ => .ok (.Assignment name e, ts4)
  | _ => .error (perror identifier "Identifier")

/-- `Parser::statement`. -/
def statementT (fuel : Nat) (ts : List Token) : Except ParseErr (ast.Statement × List Token) := do
  let (token, ts1) ← advanceT ts
  match token.ttype with
  | .Print => do
      let (e, ts2) ← expressionT fuel ts1
      let (_, ts3) ← expectT .SemiColon ts2
      .ok (.Print e, ts3)
  | .Assert => do
      let (e, ts2) ← expressionT fuel ts1
      let pk ← peekT ts2
      let r ← (match pk with
        | .Comma => do
            let (shouldBeString, ts') ← advanceT ts2.tail
            (match shouldBeString.ttype with
             | .Str msg => pure (some msg, ts')
             | _ => Except.error (perror shouldBeString "String"))
        | _ => pure (none, ts2) :
        Except ParseErr (Option String × List Token))
      let (_, ts4) ← expectT .SemiColon r.2
      .ok (.Assert e r.1, ts4)
  | .Let => parseLetSet fuel .Let ts1
  | .Set => parseLetSet fuel .Set ts1
  | _ => .error (perror token "Statement")

/-- The statement loop of `Parser::main_function`. -/
def mainFunctionStatements : Nat → List Token → Except ParseErr (List ast.Statement × List Token)
  | 0, _ => .error .fuelOut
  | fuel + 1, ts => do
      let pk ← peekT ts
      if pk = .CurlyClose then .ok ([], ts)
      else do
        let (st, ts') ← statementT fuel ts
        let (rest, ts'') ← mainFunctionStatements fuel ts'
        .ok (st :: rest, ts'')

/-- `Parser::main_function`. -/
def mainFunctionT (fuel : Nat) (ts : List Token) :
    Except ParseErr (ast.ToplevelStatement × List Token) := do
  let (_, ts1) ← expectT .CurlyOpen ts
  let (statements, ts2) ← mainFunctionStatements fuel ts1
  let (_, ts3) ← expectT .CurlyClose ts2
  .ok (.MainFunction statements, ts3)

/-- `Parser::top_level_statement`.  On a non-`Dollar` token the source calls
`self.advance()` a second time to build the error, so the reported token is
the one after the offending token. -/
def topLevelStatementT (fuel : Nat) (ts : List Token) :
    Except ParseErr (ast.ToplevelStatement × List Token) := do
  let (token, ts1) ← advanceT ts
  match token.ttype with
  | .Dollar => mainFunctionT fuel ts1
  | _ => do
      let (token2, _) ← advanceT ts1
      .error (perror token2 "Top Level Statement")

/-- The top-level-statement loop of `Parser::module`. -/
def moduleLoop : Nat → List Token → Except ParseErr (List ast.ToplevelStatement × List Token)
  | 0, _ => .error .fuelOut
  | fuel + 1, ts => do
      let pk ← peekT ts
      if pk = .Eof then .ok ([], ts)
      else do
        let (st, ts') ← topLevelStatementT fuel ts
        let (rest, ts'') ← moduleLoop fuel ts'
        .ok (st :: rest, ts'')

/-- Fuel budget for a whole parse: the Rust recursion depth is bounded by
the number of tokens times the depth of the precedence table. -/
def parseFuel (ts : List Token) : Nat := 8 * ts.length + 16

/-- `Parser::module`: the parser's entry point. -/
def parseModule (ts : List Token) : Except ParseErr ast.Module :=
  (moduleLoop (parseFuel ts) ts).map (fun r => ⟨r.1⟩)

/-! ## Typed IR (src/ir.rs) -/

namespace ir

inductive VarType where
  | Int
  | Boolean
  deriving DecidableEq, Repr

/-- Rust debug rendering of a `VarType` (used in the `set` type-mismatch
message). -/
def VarType.debugName : VarType → String
  | .Int => "Int"
  | .Boolean => "Boolean"

/-- `pub struct VariableIdentifier(pub usize);` -/
structure VariableIdentifier where
  id : Nat
  deriving DecidableEq, Repr

inductive IntBinaryOp where
  | Plus
  | Minus
  | Multiply
  | Divide
  deriving DecidableEq, Repr

inductive IntComparisonOp where
  | Equal
  | NotEquals
  | LessThan
  | LessThanEquals
  | GreaterThan
  | GreaterThanEquals
  deriving DecidableEq, Repr

inductive IntExpression where
  | Literal (value : Int)
  | Negate (e : IntExpression)
  | BinaryOperation (left : IntExpression) (op : IntBinaryOp) (right : IntExpression)
  | Var (id : VariableIdentifier)
  deriving DecidableEq, Repr

inductive ComparisonExpression where
  | IntComparison (left : IntExpression) (chains : List (IntComparisonOp × IntExpression))
  deriving DecidableEq, Repr

inductive BooleanOperator where
  | And
  | Or
  deriving DecidableEq, Repr

inductive BooleanExpression where
  | Literal (value : Bool)
  | Not (e : BooleanExpression)
  | Comparison (c : ComparisonExpression)
  | Operator (result : VariableIdentifier) (left : BooleanExpression)
      (op : BooleanOperator) (right : BooleanExpression)
  | Var (id : VariableIdentifier)
  deriving DecidableEq, Repr

inductive AssignmentStatement where
  | Int (e : IntExpression)
  | Boolean (e : BooleanExpression)
  deriving DecidableEq, Repr

inductive PrintStatement where
  | Int (e : IntExpression)
  | Boolean (e : BooleanExpression)
  deriving DecidableEq, Repr

inductive Statement where
  | Print (p : PrintStatement)
  | Assert (e : BooleanExpression) (message : Option String)
  | Assignment (id : VariableIdentifier) (a : AssignmentStatement)
  deriving DecidableEq, Repr

inductive ToplevelStatement where
  | Function (name : String) (body : List Statement)
      (locals : List (VariableIdentifier × VarType))
  deriving DecidableEq, Repr

/-- `pub struct Module(pub Vec<ToplevelStatement>);` -/
structure Module where
  statements : List ToplevelStatement
  deriving DecidableEq, Repr

end ir

/-! ## Resolver (src/type_analyzer.rs) -/

/-- Error results of the resolver.  `typeError` is the user-facing
`TypeError(String)`.  `internalAbort` models a Rust panic — the
`.unwrap()` calls on `scopes.last()` and `function_metadata`, which can only
fire when resolution runs outside a function body. -/
inductive RErr where
  | typeError (message : String)
  | internalAbort
  deriving DecidableEq, Repr

/-- The `TypedExpression` enum of type_analyzer.rs. -/
inductive TypedExpression where
  | Int (e : ir.IntExpression)
  | Boolean (e : ir.BooleanExpression)
  deriving DecidableEq, Repr

/-- `TypedExpression::is_int`. -/
def TypedExpression.is_int : TypedExpression → Except RErr ir.IntExpression
  | .Int e => .ok e
  | _ => .error (.typeError "Expected int")

/-- `TypedExpression::is_boolean`. -/
def TypedExpression.is_boolean : TypedExpression → Except RErr ir.BooleanExpression
  | .Boolean e => .ok e
  | _ => .error (.typeError "Expected bool")

/-- `TypedExpression::to_var_type`. -/
def TypedExpression.to_var_type : TypedExpression → ir.VarType
  | .Int _ => .Int
  | .Boolean _ => .Boolean

structure VarInfo where
  identifier : ir.VariableIdentifier
  var_type : ir.VarType
  deriving DecidableEq, Repr

/-- The `VarScope` struct.  Its `parent : Option<Box<VarScope>>` field is
always created as `None` and never read anywhere in type_analyzer.rs, so it
is omitted here; `varMap` is the `variables : HashMap<String, VarInfo>`
field (renamed because `variables` is reserved in Lean). -/
structure VarScope where
  varMap : List (String × VarInfo)
  deriving DecidableEq, Repr

/-- `HashMap::get` on a scope's variables. -/
def VarScope.get (scope : VarScope) (name : String) : Option VarInfo :=
  (scope.varMap.find? (fun p => p.1 = name)).map (fun p => p.2)

/-- `HashMap::insert` on a scope's variables (the new binding hides any
older one with the same name). -/
def VarScope.insert (scope : VarScope) (name : String) (info : VarInfo) : VarScope :=
  ⟨(name, info) :: scope.varMap⟩

structure FunctionMetadata where
  locals : List (ir.VariableIdentifier × ir.VarType)
  deriving DecidableEq, Repr

/-- The `Analyzer` struct: the scope stack (innermost frame at the head,
modelling the `Vec` whose `last()` is the innermost frame), the per-function
locals accumulator, and the module-wide identifier counter. -/
structure Analyzer where
  scopes : List VarScope
  function_metadata : Option FunctionMetadata
  current_identifier : Nat
  deriving DecidableEq, Repr

/-- `Analyzer::new`. -/
def Analyzer.new : Analyzer := ⟨[], none, 0⟩

/-- `Analyzer::get_free_identifier`: increment the counter, return it. -/
def getFreeIdentifier (a : Analyzer) : ir.VariableIdentifier × Analyzer :=
  (⟨a.current_identifier + 1⟩, { a with current_identifier := a.current_identifier + 1 })

/-- `self.function_metadata.as_mut().unwrap().locals.push((id, ty))`; the
`unwrap` on a missing metadata is a panic. -/
def pushLocal (a : Analyzer) (id : ir.VariableIdentifier) (ty : ir.VarType) :
    Except RErr Analyzer :=
  match a.function_metadata with
  | some m => .ok { a with function_metadata := some ⟨m.locals ++ [(id, ty)]⟩ }
  | none => .error .internalAbort

/-- `Analyzer::resolve_literal`.  A variable reference consults ONLY
`self.scopes.last()` — the innermost frame — and fails with a `TypeError`
when that frame does not bind the name; `last().unwrap()` on an empty scope
stack is a panic. -/
def resolveLiteral (a : Analyzer) (lit : ast.Literal) :
    Except RErr (TypedExpression × Analyzer) :=
  match lit with
  | .Integer int => .ok (.Int (.Literal int), a)
  | .Boolean boolean => .ok (.Boolean (.Literal boolean), a)
  | .Variable name =>
      match a.scopes.head? with
      | none => .error .internalAbort
      | some scope =>
          match scope.get name with
          | none => .error (.typeError ("variable " ++ name ++ " not found"))
          | some varInfo =>
              match varInfo.var_type with
              | .Int => .ok (.Int (.Var varInfo.identifier), a)
              | .Boolean => .ok (.Boolean (.Var varInfo.identifier), a)

/-- The int-operator arm of `Analyzer::resolve_binary`'s `match op`;
`none` is its `Err(TypeError("Operator not supported for int"))` arm. -/
def intBinaryOfAst : ast.BinaryOp → Option ir.IntBinaryOp
  | .Plus => some .Plus
  | .Minus => some .Minus
  | .Multiply => some .Multiply
  | .Divide => some .Divide
  | _ => none

/-- The boolean-operator arm of `Analyzer::resolve_binary`'s `match op`. -/
def booleanOperatorOfAst : ast.BinaryOp → Option ir.BooleanOperator
  | .And => some .And
  | .Or => some .Or
  | _ => none

/-- Operator translation in `Analyzer::resolve_comparison` (total). -/
def intComparisonOfAst : ast.ComparisonOp → ir.IntComparisonOp
  | .Equals => .Equal
  | .NotEquals => .NotEquals
  | .LessThan => .LessThan
  | .LessThanEquals => .LessThanEquals
  | .GreaterThan => .GreaterThan
  | .GreaterThanEquals => .GreaterThanEquals

mutual

/-- `Analyzer::resolve_expression`, with the bodies of `resolve_prefix`
(the `.Prefix` arm), `resolve_binary` (the `.BinaryOp` arm — both operands
are resolved before the left operand's type is examined, and a Boolean
`&&`/`||` allocates a fresh identifier and registers it in the enclosing
function's locals) and `resolve_comparison` (the `.Comparison` arm) inlined
at their call sites. -/
def resolveExpression (a : Analyzer) : ast.Expression → Except RErr (TypedExpression × Analyzer)
  | .Literal lit => resolveLiteral a lit
  | .Prefix op e => do
      let (te, a1) ← resolveExpression a e
      match op with
      | .Negate => do
          let ie ← te.is_int
          .ok (.Int (.Negate ie), a1)
      | .Not => do
          let be ← te.is_boolean
          .ok (.Boolean (.Not be), a1)
  | .BinaryOp left op right => do
      let (l, a1) ← resolveExpression a left
      let (r, a2) ← resolveExpression a1 right
      match l with
      | .Int li => do
          let ri ← r.is_int
          match intBinaryOfAst op with
          | some iop => .ok (.Int (.BinaryOperation li iop ri), a2)
          | none => .error (.typeError "Operator not supported for int")
      | .Boolean lb => do
          let rb ← r.is_boolean
          match booleanOperatorOfAst op with
          | some bop => do
              let (resultIdentifier, a3) := getFreeIdentifier a2
              let a4 ← pushLocal a3 resultIdentifier .Boolean
              .ok (.Boolean (.Operator resultIdentifier lb bop rb), a4)
          | none => .error (.typeError "Operator not supported for boolean")
  | .Comparison leftSide chains => do
      let (l, a1) ← resolveExpression a leftSide
      let li ← l.is_int
      let (rchains, a2) ← resolveChains a1 chains
      .ok (.Boolean (.Comparison (.IntComparison li rchains)), a2)
termination_by structural e => e

/-- The chain-resolving `map` inside `Analyzer::resolve_comparison`: each
right-hand side must resolve to Int. -/
def resolveChains (a : Analyzer) :
    List (ast.ComparisonOp × ast.Expression) →
      Except RErr (List (ir.IntComparisonOp × ir.IntExpression) × Analyzer)
  | [] => .ok ([], a)
  | (op, e) :: rest => do
      let (te, a1) ← resolveExpression a e
      let ie ← te.is_int
      let (rs, a2) ← resolveChains a1 rest
      .ok ((intComparisonOfAst op, ie) :: rs, a2)
termination_by structural l => l

end

/-- `Analyzer::resolve_print_statement`. -/
def resolvePrintStatement (a : Analyzer) (e : ast.Expression) :
    Except RErr (ir.PrintStatement × Analyzer) := do
  let (te, a1) ← resolveExpression a e
  match te with
  | .Int ie => .ok (.Int ie, a1)
  | .Boolean be => .ok (.Boolean be, a1)

/-- `Analyzer::resolve_statement`.  A `Declaration` allocates a fresh
identifier BEFORE resolving its expression, records it in the function's
locals and binds the name in the innermost frame.  An `Assignment` resolves
its expression, then looks the name up in the innermost frame only, fails
with a `TypeError` when it is unbound or its declared type differs from the
expression's type, and reuses the existing identifier. -/
def resolveStatement (a : Analyzer) : ast.Statement → Except RErr (ir.Statement × Analyzer)
  | .Print e => do
      let (p, a1) ← resolvePrintStatement a e
      .ok (.Print p, a1)
  | .Assert e message => do
      let (te, a1) ← resolveExpression a e
      let be ← te.is_boolean
      .ok (.Assert be message, a1)
  | .Declaration name e => do
      let (identifier, a1) := getFreeIdentifier a
      let (te, a2) ← resolveExpression a1 e
      let varType := te.to_var_type
      let a3 ← pushLocal a2 identifier varType
      let assignment := match te with
        | .Int ie => ir.AssignmentStatement.Int ie
        | .Boolean be => ir.AssignmentStatement.Boolean be
      match a3.scopes with
      | [] => .error .internalAbort
      | scope :: outer =>
          .ok (.Assignment identifier assignment,
               { a3 with scopes := scope.insert name ⟨identifier, varType⟩ :: outer })
  | .Assignment name e => do
      let (te, a1) ← resolveExpression a e
      match a1.scopes.head? with
      | none => .error .internalAbort
      | some scope =>
          match scope.get name with
          | none => .error (.typeError ("variable " ++ name ++ " not found"))
          | some varInfo =>
              let varType := te.to_var_type
              if varType ≠ varInfo.var_type then
                .error (.typeError ("expression is of type " ++ varType.debugName
                  ++ ", but variable " ++ name ++ " is not."))
              else
                let assignment := match te with
                  | .Int ie => ir.AssignmentStatement.Int ie
                  | .Boolean be => ir.AssignmentStatement.Boolean be
                .ok (.Assignment varInfo.identifier assignment, a1)

/-- The statement loop of `Analyzer::resolve_top_level_statement`. -/
def resolveStatementsLoop (a : Analyzer) :
    List ast.Statement → Except RErr (List ir.Statement × Analyzer)
  | [] => .ok ([], a)
  | st :: rest => do
      let (irSt, a1) ← resolveStatement a st
      let (irRest, a2) ← resolveStatementsLoop a1 rest
      .ok (irSt :: irRest, a2)

/-- `Analyzer::resolve_top_level_statement`: install a fresh locals
accumulator, push a fresh scope frame (the source never pops it), resolve
the body, and emit the function with the accumulated locals table. -/
def resolveTopLevelStatement (a : Analyzer) :
    ast.ToplevelStatement → Except RErr (ir.ToplevelStatement × Analyzer)
  | .MainFunction statements => do
      let a1 : Analyzer :=
        { a with function_metadata := some ⟨[]⟩, scopes := ⟨[]⟩ :: a.scopes }
      let (irStatements, a2) ← resolveStatementsLoop a1 statements
      match a2.function_metadata with
      | some m => .ok (.Function "main" irStatements m.locals, a2)
      | none => .error .internalAbort

/-- The top-level loop of `Analyzer::resolve_module`. -/
def resolveModuleLoop (a : Analyzer) :
    List ast.ToplevelStatement → Except RErr (List ir.ToplevelStatement × Analyzer)
  | [] => .ok ([], a)
  | st :: rest => do
      let (irSt, a1) ← resolveTopLevelStatement a st
      let (irRest, a2) ← resolveModuleLoop a1 rest
      .ok (irSt :: irRest, a2)

/-- `Analyzer::resolve_module` (also returning the analyzer's final state,
which the Rust `&mut self` method keeps). -/
def resolveModule (a : Analyzer) (m : ast.Module) : Except RErr (ir.Module × Analyzer) := do
  let (sts, a1) ← resolveModuleLoop a m.statements
  .ok (⟨sts⟩, a1)

/-! ## Code generator (src/code_gen.rs)

The code generator drives the inkwell LLVM builder.  The embedding models
the builder as explicit state: a list of basic blocks (id paired with its
instruction list, in creation order — `insert_basic_block_after` affects
only textual layout, which nothing observes), the current insertion block,
counters for fresh SSA value ids and block ids, the `local_vars` map from
variable-identifier to its stack-slot pointer value, and the declared
runtime primitives.  `build_global_string_ptr` is collapsed into the
string-typed operand of the printf call instruction.  Every `unwrap()`
(an identifier with no allocated slot, `get_function` on an undeclared
primitive, `parts[0]` on an empty comparison chain) is the `genAbort`
panic. -/

inductive GenErr where
  | genAbort
  deriving DecidableEq, Repr

inductive Value where
  | intConst (width : Nat) (value : Int)
  | ref (n : Nat)
  | globalStr (s : String)
  deriving DecidableEq, Repr

inductive Pred where
  | EQ
  | NE
  | SLT
  | SLE
  | SGT
  | SGE
  deriving DecidableEq, Repr

inductive Instr where
  | neg (id : Nat) (v : Value)
  | add (id : Nat) (l r : Value)
  | sub (id : Nat) (l r : Value)
  | mul (id : Nat) (l r : Value)
  | sdiv (id : Nat) (l r : Value)
  | icmp (id : Nat) (p : Pred) (l r : Value)
  | band (id : Nat) (l r : Value)
  | bnot (id : Nat) (v : Value)
  | load (id : Nat) (ptr : Value)
  | store (ptr : Value) (v : Value)
  | alloca (id : Nat) (ty : ir.VarType)
  | callPrintf (id : Nat) (fmt : Value) (args : List Value)
  | callAbort (id : Nat)
  | condBr (cond : Value) (thenBlk elseBlk : Nat)
  | br (blk : Nat)
  | retI32 (v : Value)
  | unreachableTerm
  deriving DecidableEq, Repr

structure GenState where
  blocks : List (Nat × List Instr)
  current : Nat
  nextVal : Nat
  nextBlock : Nat
  local_vars : List (Nat × Value)
  declaredFns : List String
  fns : List (String × Nat)
  deriving DecidableEq, Repr

/-- The builder monad: state passing plus the panic error. -/
def GenM (α : Type) : Type := GenState → Except GenErr (α × GenState)

def pureG {α : Type} (a : α) : GenM α := fun s => .ok (a, s)

def bindG {α β : Type} (x : GenM α) (f : α → GenM β) : GenM β := fun s =>
  match x s with
  | .ok (a, s1) => f a s1
  | .error e => .error e

instance : Monad GenM where
  pure := pureG
  bind := bindG

/-- A Rust panic inside the code generator. -/
def genPanic {α : Type} : GenM α := fun _ => .error .genAbort

def modifyG (f : GenState → GenState) : GenM Unit := fun s => .ok ((), f s)

/-- Instruction list of a block (empty for an unknown id). -/
def getBlock (s : GenState) (b : Nat) : List Instr :=
  ((s.blocks.find? (fun p => p.1 = b)).map (fun p => p.2)).getD []

def appendToBlock (bs : List (Nat × List Instr)) (b : Nat) (i : Instr) :
    List (Nat × List Instr) :=
  bs.map (fun p => if p.1 = b then (p.1, p.2 ++ [i]) else p)

/-- Append an instruction to the current insertion block. -/
def emitInstr (i : Instr) : GenM Unit :=
  modifyG (fun s => { s with blocks := appendToBlock s.blocks s.current i })

/-- Allocate a fresh SSA value id. -/
def freshVal : GenM Nat := fun s =>
  .ok (s.nextVal, { s with nextVal := s.nextVal + 1 })

/-- Emit a value-producing instruction into the current block and return the
value referring to it. -/
def emit (mk : Nat → Instr) : GenM Value := do
  let n ← freshVal
  emitInstr (mk n)
  pure (.ref n)

/-- `Context::insert_basic_block_after` / `Context::append_basic_block`:
create a fresh, empty basic block. -/
def newBlock : GenM Nat := fun s =>
  .ok (s.nextBlock,
       { s with blocks := s.blocks ++ [(s.nextBlock, [])], nextBlock := s.nextBlock + 1 })

/-- `Builder::position_at_end`. -/
def positionAtEnd (b : Nat) : GenM Unit :=
  modifyG (fun s => { s with current := b })

/-- `self.local_vars.get(identifier).unwrap()`: the stack-slot pointer of an
identifier; a missing slot is a panic. -/
def getLocalVar (id : ir.VariableIdentifier) : GenM Value := fun s =>
  match (s.local_vars.find? (fun p => p.1 = id.id)).map (fun p => p.2) with
  | some pointer => .ok (pointer, s)
  | none => .error .genAbort

/-- `self.module.get_function(name).unwrap()`: a panic unless the primitive
was declared. -/
def getFunction (name : String) : GenM Unit := fun s =>
  if name ∈ s.declaredFns then .ok ((), s) else .error .genAbort

/-- `CodeGen::compile_libc_definitions`: declare `printf` and `abort`. -/
def compileLibcDefinitions : GenM Unit :=
  modifyG (fun s => { s with declaredFns := s.declaredFns ++ ["printf", "abort"] })

/-- `CodeGen::compile_int_expression`.  `IntWidth` is 32, so integer
arithmetic is emitted at width 32; division is `build_int_signed_div`. -/
def compileIntExpression : ir.IntExpression → GenM Value
  | .Literal int => pure (.intConst 32 int)
  | .Negate e => do
      let v ← compileIntExpression e
      emit (fun n => .neg n v)
  | .BinaryOperation left op right => do
      let l ← compileIntExpression left
      let r ← compileIntExpression right
      match op with
      | .Plus => emit (fun n => .add n l r)
      | .Minus => emit (fun n => .sub n l r)
      | .Multiply => emit (fun n => .mul n l r)
      | .Divide => emit (fun n => .sdiv n l r)
  | .Var identifier => do
      let pointer ← getLocalVar identifier
      emit (fun n => .load n pointer)

/-- LLVM predicate of an IR comparison operator. -/
def predOfIntComparison : ir.IntComparisonOp → Pred
  | .Equal => .EQ
  | .NotEquals => .NE
  | .LessThan => .SLT
  | .LessThanEquals => .SLE
  | .GreaterThan => .SGT
  | .GreaterThanEquals => .SGE

/-- The per-link loop of `CodeGen::compile_comparison`: for each
`(op, right_side)` pair, compile the operand, compare it against the running
`current_left`, and make the operand the new `current_left`; returns the
list of per-link comparison values. -/
def compileComparisonChains (currentLeft : Value) :
    List (ir.IntComparisonOp × ir.IntExpression) → GenM (List Value)
  | [] => pure []
  | (op, rightSide) :: rest => do
      let r ← compileIntExpression rightSide
      let part ← emit (fun n => .icmp n (predOfIntComparison op) currentLeft r)
      let parts ← compileComparisonChains r rest
      pure (part :: parts)

/-- The result-combining loop of `CodeGen::compile_comparison`: left-fold the
link results with `build_and`. -/
def foldAnd (result : Value) : List Value → GenM Value
  | [] => pure result
  | part :: rest => do
      let v ← emit (fun n => .band n result part)
      foldAnd v rest

/-- `CodeGen::compile_comparison`: compile the left operand, then every link
(each operand compiled once, shared between its two adjacent comparisons),
then fold the link results with bitwise AND starting from `parts[0]` — which
panics when the chain is empty. -/
def compileComparison : ir.ComparisonExpression → GenM Value
  | .IntComparison left chains => do
      let currentLeft ← compileIntExpression left
      let parts ← compileComparisonChains currentLeft chains
      match parts with
      | [] => genPanic
      | first :: rest => foldAnd first rest

/-- `CodeGen::compile_bool_expression`.  A short-circuit `Operator` node
compiles the left operand, creates the `right_block`, `short_block` and
`continue_block`, branches on the left value (`&&`: true to `right_block`,
false to `short_block`; `||`: true to `short_block`, false to
`right_block`), stores the right operand's value (on the right path) or the
absorbing constant (false for `&&`, true for `||`, on the short path) into
the slot of the identifier reserved by the resolver, and loads that slot in
the continue block as the expression's value. -/
def compileBoolExpression : ir.BooleanExpression → GenM Value
  | .Literal boolean => pure (.intConst 1 (if boolean then 1 else 0))
  | .Not e => do
      let v ← compileBoolExpression e
      emit (fun n => .bnot n v)
  | .Comparison comparison => compileComparison comparison
  | .Operator resultIdentifier left op right => do
      let l ← compileBoolExpression left
      let rightBlock ← newBlock
      let shortBlock ← newBlock
      let continueBlock ← newBlock
      let pointer ← getLocalVar resultIdentifier
      (match op with
       | .And => emitInstr (.condBr l rightBlock shortBlock)
       | .Or => emitInstr (.condBr l shortBlock rightBlock))
      positionAtEnd rightBlock
      let r ← compileBoolExpression right
      emitInstr (.store pointer r)
      emitInstr (.br continueBlock)
      positionAtEnd shortBlock
      let shortResult : Value := match op with
        | .And => .intConst 1 0
        | .Or => .intConst 1 1
      emitInstr (.store pointer shortResult)
      emitInstr (.br continueBlock)
      positionAtEnd continueBlock
      emit (fun n => .load n pointer)
  | .Var identifier => do
      let pointer ← getLocalVar identifier
      emit (fun n => .load n pointer)

/-- `CodeGen::compile_print_statement`: select the format template by the
operand's static type and call printf with the computed value. -/
def compilePrintStatement (statement : ir.PrintStatement) : GenM Unit := do
  getFunction "printf"
  let formatString : String := match statement with
    | .Int _ => "%d\n"
    | .Boolean _ => "Bool(%d)\n"
  match statement with
  | .Int ie => do
      let v ← compileIntExpression ie
      let _ ← emit (fun n => .callPrintf n (.globalStr formatString) [v])
      pure ()
  | .Boolean be => do
      let v ← compileBoolExpression be
      let _ ← emit (fun n => .callPrintf n (.globalStr formatString) [v])
      pure ()

/-- `CodeGen::compile_const_printf`. -/
def compileConstPrintf (msg : String) : GenM Unit := do
  getFunction "printf"
  let _ ← emit (fun n => .callPrintf n (.globalStr msg) [])
  pure ()

/-- `CodeGen::compile_assert`: compile the Boolean operand, create the
`fail_block` and `continue_block`, branch (true to continue, false to fail);
the fail block prints the diagnostic (`"Assert failed: {message}\n"` when a
literal message was given, else `"Assert failed\n"`), calls `abort` and ends
with an `unreachable` terminator; compilation resumes in the continue
block. -/
def compileAssert (expression : ir.BooleanExpression) (message : Option String) :
    GenM Unit := do
  let conditionValue ← compileBoolExpression expression
  let failBlock ← newBlock
  let continueBlock ← newBlock
  emitInstr (.condBr conditionValue continueBlock failBlock)
  positionAtEnd failBlock
  (match message with
   | some msg => compileConstPrintf ("Assert failed: " ++ msg ++ "\n")
   | none => compileConstPrintf "Assert failed\n")
  getFunction "abort"
  let _ ← emit (fun n => .callAbort n)
  emitInstr .unreachableTerm
  positionAtEnd continueBlock

/-- `CodeGen::compile_statement`. -/
def compileStatement : ir.Statement → GenM Unit
  | .Print p => compilePrintStatement p
  | .Assert e message => compileAssert e message
  | .Assignment identifier st => do
      let pointer ← getLocalVar identifier
      match st with
      | .Int e => do
          let v ← compileIntExpression e
          emitInstr (.store pointer v)
      | .Boolean e => do
          let v ← compileBoolExpression e
          emitInstr (.store pointer v)

/-- The alloca loop of `CodeGen::compile_top_level_statement`: one stack
slot per local, sized by its type, recorded in `local_vars`. -/
def allocLocals : List (ir.VariableIdentifier × ir.VarType) → GenM Unit
  | [] => pure ()
  | (identifier, varType) :: rest => do
      let v ← emit (fun n => .alloca n varType)
      modifyG (fun s => { s with local_vars := (identifier.id, v) :: s.local_vars })
      allocLocals rest

def compileStatementsLoop : List ir.Statement → GenM Unit
  | [] => pure ()
  | st :: rest => do
      compileStatement st
      compileStatementsLoop rest

/-- `CodeGen::compile_top_level_statement`: add the function, append its
entry block and position there, clear `local_vars`, allocate every local up
front, emit the body statements in order, and return the success status 0. -/
def compileTopLevelStatement : ir.ToplevelStatement → GenM Unit
  | .Function name statements locals => do
      let entryBlock ← newBlock
      modifyG (fun s => { s with fns := (name, entryBlock) :: s.fns, local_vars := [] })
      positionAtEnd entryBlock
      allocLocals locals
      compileStatementsLoop statements
      emitInstr (.retI32 (.intConst 32 0))

def compileModuleLoop : List ir.ToplevelStatement → GenM Unit
  | [] => pure ()
  | st :: rest => do
      compileTopLevelStatement st
      compileModuleLoop rest

/-- `CodeGen::compile_module`. -/
def compileModule (m : ir.Module) : GenM Unit := do
  compileLibcDefinitions
  compileModuleLoop m.statements

/-- `CodeGen::new`: an empty module and builder (the builder has no
insertion position until the first `position_at_end`; block id 0 is used as
the initial placeholder and is never a real block before positioning). -/
def GenState.new : GenState := ⟨[], 0, 0, 0, [], [], []⟩

/-! ## General helper lemmas -/

@[simp]
theorem except_bind_ok {ε α β : Type} (a : α) (f : α → Except ε β) :
    (Except.ok a >>= f) = f a := rfl

@[simp]
theorem except_bind_err {ε α β : Type} (e : ε) (f : α → Except ε β) :
    ((Except.error e : Except ε α) >>= f) = Except.error e := rfl

theorem except_bind_eq_ok {ε α β : Type} {x : Except ε α} {f : α → Except ε β} {b : β}
    (h : x >>= f = .ok b) : ∃ a, x = .ok a ∧ f a = .ok b := by
  cases x with
  | ok a => exact ⟨a, rfl, h⟩
  | error e => simp at h

/-! ## C1 — reserved keywords in the tokenizer

The spec requires `print`, `true`, `false`, `assert`, `let` and `set` to be
recognized as reserved keywords; `consume_identifier` maps only the first
four, while `let` and `set` come out as plain `Identifier` tokens (even
though `Parser::statement` pattern-matches on dedicated `Let`/`Set` tokens
that the tokenizer can never produce). -/

/-- C1: evaluating the tokenizer at the failing inputs: the maximal
identifier lexemes `let` and `set` tokenize to plain `Identifier` tokens,
not to dedicated keyword tokens, while `print`, `true`, `false` and `assert`
do map to their keyword tokens. -/
theorem C1_keyword_tokens :
    tokenize "let" = .ok [⟨.Identifier "let", 1, 4⟩, ⟨.Eof, 1, 4⟩] ∧
    tokenize "set" = .ok [⟨.Identifier "set", 1, 4⟩, ⟨.Eof, 1, 4⟩] ∧
    keywordLookup "print" = .Print ∧
    keywordLookup "true" = .True ∧
    keywordLookup "false" = .False ∧
    keywordLookup "assert" = .Assert ∧
    keywordLookup "let" = .Identifier "let" ∧
    keywordLookup "set" = .Identifier "set" :=
  ⟨rfl, rfl, rfl, rfl, rfl, rfl, rfl, rfl⟩

/-! ## C2 — running out of tokens -/

/-- C2 counterexample: on the empty token sequence the parser immediately
needs a token; it fails with the internal `endOfTokens` kind (`anyhow`
context `"Unexpected End of Tokens"`), which is not the
`ParsingError {line, char, got, expected}` kind. -/
theorem C2_exhaustion_counterexample :
    parseModule [] = .error .endOfTokens ∧
    ParseErr.endOfTokens.isParsingError = false :=
  ⟨rfl, rfl⟩

/-- C2 (amended): whenever the parser needs a token and the stream is
exhausted — every token access goes through `Parser::peek` or
`Parser::advance` — it fails with the separate internal out-of-tokens error
(`"Unexpected End of Tokens"`), not with the `ParsingError` kind;
`peek`/`advance` produce that error exactly on the empty stream. -/
theorem C2_exhaustion_internal_kind :
    (∀ ts : List Token, ts = [] →
      peekT ts = .error .endOfTokens ∧ advanceT ts = .error .endOfTokens) ∧
    (∀ (ts : List Token) (e : ParseErr), peekT ts = .error e →
      ts = [] ∧ e = .endOfTokens ∧ e.isParsingError = false) ∧
    (∀ (ts : List Token) (e : ParseErr), advanceT ts = .error e →
      ts = [] ∧ e = .endOfTokens ∧ e.isParsingError = false) := by
  refine ⟨?_, ?_, ?_⟩
  · rintro ts rfl
    exact ⟨rfl, rfl⟩
  · intro ts e h
    cases ts with
    | nil => cases h; exact ⟨rfl, rfl, rfl⟩
    | cons t rest => simp [peekT] at h
  · intro ts e h
    cases ts with
    | nil => cases h; exact ⟨rfl, rfl, rfl⟩
    | cons t rest => simp [advanceT] at h

/-- Witness for C2: the amended theorem applied at the empty stream. -/
theorem C2_exhaustion_internal_kind_witness :
    peekT [] = .error .endOfTokens ∧ advanceT [] = .error .endOfTokens :=
  C2_exhaustion_internal_kind.1 [] rfl

/-! ## C10 — integer literals and tokenizer totality -/

theorem consumeNumberAux_allDigits (ds : List Char) (line ch : Nat)
    (h : ∀ c ∈ ds, isAsciiDigit c = true) :
    consumeNumberAux ds line ch = (ds, [], line, ch + ds.length) := by
  induction ds generalizing ch with
  | nil => simp [consumeNumberAux]
  | cons c rest ih =>
      have hc : isAsciiDigit c = true := h c (by simp)
      simp only [consumeNumberAux, hc, if_true]
      rw [ih (ch + 1) (fun d hd => h d (by simp [hd]))]
      simp only [Prod.mk.injEq, List.length_cons, true_and]
      omega

/-- C10: the tokenizer is not total.  The in-range decimal literal always
produces an `Integer` token carrying exactly the parsed value (with the
terminal `Eof`), but the literal `3000000000`, which exceeds the `i32`
range, aborts through the unchecked `parse().unwrap()` — the
`intParseAbort` panic, which is not a `TokenizerError`. -/
theorem C10_integer_literals :
    tokenize "3000000000" = .error .intParseAbort ∧
    (∀ line char msg, TokFail.intParseAbort ≠ .tokenizerError line char msg) ∧
    (∀ ds : List Char, ds ≠ [] → (∀ c ∈ ds, isAsciiDigit c = true) →
      digitsToNat ds ≤ i32Max →
      tokenize (String.mk ds)
        = .ok [⟨.Integer (Int.ofNat (digitsToNat ds)), 1, ds.length + 1⟩,
               ⟨.Eof, 1, ds.length + 1⟩]) := by
  refine ⟨rfl, ?_, ?_⟩
  · intro line char msg h
    cases h
  intro ds hne hdig hle
  obtain ⟨c, rest, rfl⟩ := List.exists_cons_of_ne_nil hne
  have hc : isAsciiDigit c = true := hdig c (by simp)
  have hhash : ¬ c = '#' := by
    intro h
    subst h
    exact absurd hc (by decide)
  have hquote : ¬ c = '"' := by
    intro h
    subst h
    exact absurd hc (by decide)
  show tokenizeGo ((String.mk (c :: rest)).length + 1) (String.mk (c :: rest)).toList 1 1 []
      = _
  have hlist : (String.mk (c :: rest)).toList = c :: rest := rfl
  have hlen : (String.mk (c :: rest)).length = rest.length + 1 := rfl
  rw [hlist, hlen]
  simp only [tokenizeGo, hhash, hquote, hc, if_false, if_true, ite_false, ite_true]
  rw [show consumeNumber (c :: rest) 1 1
        = .ok (⟨.Integer (Int.ofNat (digitsToNat (c :: rest))), 1, 1 + (c :: rest).length⟩,
               [], 1, 1 + (c :: rest).length) from ?_]
  · simp only [tokenizeGo, List.nil_append]
    have : 1 + (c :: rest).length = (c :: rest).length + 1 := by omega
    rw [this]
    rfl
  · unfold consumeNumber
    rw [consumeNumberAux_allDigits (c :: rest) 1 1 hdig]
    simp only [hle, if_true]

/-- Witness for C10: the in-range clause applied at the one-digit literal
`7`. -/
theorem C10_integer_literals_witness :
    tokenize (String.mk ['7'])
      = .ok [⟨.Integer (Int.ofNat (digitsToNat ['7'])), 1, (['7'] : List Char).length + 1⟩,
             ⟨.Eof, 1, (['7'] : List Char).length + 1⟩] :=
  C10_integer_literals.2.2 ['7'] (by decide) (by decide) (by decide)

/-! ## C7 — flat comparison chains in the parser -/

/-- The six comparison-operator tokens of the precedence table's comparison
level. -/
def comparisonTokens : List TokenType := [.EqEq, .BangEq, .Lt, .LtEq, .Gt, .GtEq]

/-- The `(token, operator)` table of the comparison level (index 2 of
`OPERATORS`). -/
def comparisonTable : List (TokenType × ast.ComparisonOp) :=
  [(.EqEq, .Equals), (.BangEq, .NotEquals), (.Lt, .LessThan),
   (.LtEq, .LessThanEquals), (.Gt, .GreaterThan), (.GtEq, .GreaterThanEquals)]

/-- One unfolding step of the comparison level of
`Parser::expression_precedence`. -/
theorem expressionPrecedence_cmp_step (g : Nat) (ts : List Token) :
    expressionPrecedence (g + 1) 2 ts = (do
      let (leftSide, ts1) ← expressionPrecedence g 3 ts
      let (chains, ts2) ← comparisonLoop (expressionPrecedence g 3) comparisonTable g ts1
      if chains.isEmpty then Except.ok (leftSide, ts2)
      else Except.ok (.Comparison leftSide chains, ts2)) := rfl

/-- The comparison-chain loop stops immediately when the next token is not
in its operator table. -/
theorem comparisonLoop_none_step
    (sub : List Token → Except ParseErr (ast.Expression × List Token))
    (cmps : List (TokenType × ast.ComparisonOp)) (g : Nat) (t : Token) (rest : List Token)
    (h : cmps.find? (fun p => p.1 = t.ttype) = none) :
    comparisonLoop sub cmps (g + 1) (t :: rest) = .ok ([], t :: rest) := by
  simp only [comparisonLoop, peekT, except_bind_ok, h]

/-- C7: the comparison level of `expression_precedence` produces a single
flat `Comparison` node: on the token form of `a<b<=c<d` it yields one node
holding the left operand and the ordered 3-element chain (never nested
binary nodes), and whenever the token after the tighter-level left operand
is not a comparison operator, the left operand is returned unchanged. -/
theorem C7_comparison_chain :
    (expressionPrecedence 16 2
        [⟨.Identifier "a", 0, 0⟩, ⟨.Lt, 0, 0⟩, ⟨.Identifier "b", 0, 0⟩, ⟨.LtEq, 0, 0⟩,
         ⟨.Identifier "c", 0, 0⟩, ⟨.Lt, 0, 0⟩, ⟨.Identifier "d", 0, 0⟩, ⟨.Eof, 0, 0⟩]
      = .ok (.Comparison (.Literal (.Variable "a"))
          [(.LessThan, .Literal (.Variable "b")), (.LessThanEquals, .Literal (.Variable "c")),
           (.LessThan, .Literal (.Variable "d"))],
          [⟨.Eof, 0, 0⟩])) ∧
    (∀ (fuel : Nat) (ts rest : List Token) (t : Token) (left : ast.Expression),
      expressionPrecedence fuel 3 ts = .ok (left, t :: rest) →
      t.ttype ∉ comparisonTokens →
      expressionPrecedence (fuel + 1) 2 ts = .ok (left, t :: rest)) := by
  constructor
  · rfl
  · intro fuel ts rest t left hsub hnot
    cases fuel with
    | zero => exact absurd hsub (by simp [expressionPrecedence])
    | succ g =>
        have hfind : comparisonTable.find? (fun p => p.1 = t.ttype) = none := by
          rw [List.find?_eq_none]
          intro x hx hdec
          have hx1 : x.1 = t.ttype := of_decide_eq_true hdec
          apply hnot
          fin_cases hx <;> simp_all [comparisonTokens, comparisonTable]
        rw [expressionPrecedence_cmp_step (g + 1) ts, hsub, except_bind_ok]
        dsimp only
        rw [comparisonLoop_none_step _ _ _ _ _ hfind]
        rfl

/-- Witness for C7: the no-operator clause applied at the token sequence of
the bare identifier `a` followed by a semicolon. -/
theorem C7_comparison_chain_witness :
    expressionPrecedence 11 2 [⟨.Identifier "a", 0, 0⟩, ⟨.SemiColon, 0, 0⟩]
      = .ok (.Literal (.Variable "a"), [⟨.SemiColon, 0, 0⟩]) :=
  C7_comparison_chain.2 10 [⟨.Identifier "a", 0, 0⟩, ⟨.SemiColon, 0, 0⟩] []
    ⟨.SemiColon, 0, 0⟩ (.Literal (.Variable "a")) rfl (by decide)

/-! ## C6 — the `set` statement -/

/-- The `match typed_expression` that builds the emitted assignment payload
in `Analyzer::resolve_statement`. -/
def assignmentOfTyped : TypedExpression → ir.AssignmentStatement
  | .Int ie => .Int ie
  | .Boolean be => .Boolean be

/-- C6: resolving `set name = e` — whose right-hand side resolves to `te`
leaving state `a1` — fails with a TypeError exactly when the innermost frame
does not bind `name` or binds it at a type different from `te`'s; on success
it emits an assignment to the binding's existing identifier and leaves the
resolver state exactly `a1`: no new identifier and no new local is
allocated by the `set` handling itself.  Concretely,
`let x = 1; set x = true;` fails resolution with the Int/Boolean
mismatch. -/
theorem C6_set_statement :
    (∀ (a : Analyzer) (name : String) (e : ast.Expression) (te : TypedExpression)
       (a1 : Analyzer) (scope : VarScope) (outer : List VarScope),
      resolveExpression a e = .ok (te, a1) →
      a1.scopes = scope :: outer →
      (match scope.get name with
       | none =>
           resolveStatement a (.Assignment name e)
             = .error (.typeError ("variable " ++ name ++ " not found"))
       | some varInfo =>
           if te.to_var_type = varInfo.var_type then
             resolveStatement a (.Assignment name e)
               = .ok (.Assignment varInfo.identifier (assignmentOfTyped te), a1)
           else
             resolveStatement a (.Assignment name e)
               = .error (.typeError ("expression is of type " ++ te.to_var_type.debugName
                   ++ ", but variable " ++ name ++ " is not.")))) ∧
    resolveModule Analyzer.new ⟨[.MainFunction
        [.Declaration "x" (.Literal (.Integer 1)),
         .Assignment "x" (.Literal (.Boolean true))]]⟩
      = .error (.typeError "expression is of type Boolean, but variable x is not.") := by
  constructor
  · intro a name e te a1 scope outer hres hscopes
    simp only [resolveStatement, hres, except_bind_ok]
    rw [hscopes]
    cases hget : scope.get name with
    | none => simp [hget]
    | some varInfo =>
        simp only [hget, List.head?]
        by_cases hty : te.to_var_type = varInfo.var_type
        · simp only [hty, if_true, ne_eq, not_true_eq_false, if_false]
          cases te <;> simp [assignmentOfTyped]
        · simp only [hty, if_false, ne_eq, not_false_eq_true, if_true]
  · rfl

/-- Witness for C6: the general clause applied at a state whose innermost
frame binds `y` at Int, with the right-hand side `3`. -/
theorem C6_set_statement_witness :
    resolveStatement ⟨[⟨[("y", ⟨⟨5⟩, .Int⟩)]⟩], some ⟨[]⟩, 7⟩
        (.Assignment "y" (.Literal (.Integer 3)))
      = .ok (.Assignment ⟨5⟩ (.Int (.Literal 3)), ⟨[⟨[("y", ⟨⟨5⟩, .Int⟩)]⟩], some ⟨[]⟩, 7⟩) := by
  have h := C6_set_statement.1 ⟨[⟨[("y", ⟨⟨5⟩, .Int⟩)]⟩], some ⟨[]⟩, 7⟩ "y"
    (.Literal (.Integer 3)) (.Int (.Literal 3)) ⟨[⟨[("y", ⟨⟨5⟩, .Int⟩)]⟩], some ⟨[]⟩, 7⟩
    ⟨[("y", ⟨⟨5⟩, .Int⟩)]⟩ [] rfl rfl
  simpa using h

/-! ## Resolver state invariants (used for C3 and C5)

Every identifier the resolver hands out comes from `get_free_identifier`,
which increments the module-wide counter; the lemmas below track, through
every resolver function, that the counter is monotone, that the per-function
locals accumulator only grows, that every appended local carries an
identifier from the strictly-fresh interval, and that expression resolution
never touches the scope stack. -/

/-- The locals accumulated so far (empty when no function is being
resolved). -/
def localsOf (a : Analyzer) : List (ir.VariableIdentifier × ir.VarType) :=
  match a.function_metadata with
  | some m => m.locals
  | none => []

/-- Counter/locals invariant between two resolver states: the counter is
monotone and the locals accumulator grew only by entries with identifiers
from the interval between the two counter values, pairwise distinct. -/
def LocalsInv (a a' : Analyzer) : Prop :=
  a.current_identifier ≤ a'.current_identifier ∧
  ∃ Δ, localsOf a' = localsOf a ++ Δ ∧
       (∀ p ∈ Δ, a.current_identifier < p.1.id ∧ p.1.id ≤ a'.current_identifier) ∧
       (Δ.map (fun p => p.1.id)).Nodup

theorem LocalsInv.locals_refl (a : Analyzer) : LocalsInv a a :=
  ⟨le_refl _, [], by simp, by simp, by simp⟩

theorem LocalsInv.locals_trans {a b c : Analyzer} (h1 : LocalsInv a b) (h2 : LocalsInv b c) :
    LocalsInv a c := by
  obtain ⟨hc1, Δ1, hl1, hb1, hn1⟩ := h1
  obtain ⟨hc2, Δ2, hl2, hb2, hn2⟩ := h2
  refine ⟨le_trans hc1 hc2, Δ1 ++ Δ2, by rw [hl2, hl1, List.append_assoc], ?_, ?_⟩
  · intro p hp
    rcases List.mem_append.mp hp with hp | hp
    · have := hb1 p hp
      omega
    · have := hb2 p hp
      omega
  · rw [List.map_append]
    refine (hn1.append hn2) ?_
    intro x hx1 hx2
    obtain ⟨p1, hp1, rfl⟩ := List.mem_map.mp hx1
    obtain ⟨p2, hp2, heq⟩ := List.mem_map.mp hx2
    have b1 := hb1 p1 hp1
    have b2 := hb2 p2 hp2
    omega

theorem pushLocal_spec {a a' : Analyzer} {id : ir.VariableIdentifier} {ty : ir.VarType}
    (h : pushLocal a id ty = .ok a') :
    a'.scopes = a.scopes ∧ a'.current_identifier = a.current_identifier ∧
      localsOf a' = localsOf a ++ [(id, ty)] := by
  unfold pushLocal at h
  revert h
  cases hm : a.function_metadata with
  | none => intro h; cases h
  | some m =>
      intro h
      cases h
      exact ⟨rfl, rfl, by simp [localsOf, hm]⟩

/-- Allocating a fresh identifier and pushing it as a local satisfies the
invariant. -/
theorem freshPush_inv {a a' : Analyzer} {ty : ir.VarType}
    (h : pushLocal (getFreeIdentifier a).2 (getFreeIdentifier a).1 ty = .ok a') :
    a'.scopes = a.scopes ∧ LocalsInv a a' := by
  obtain ⟨hs, hc, hl⟩ := pushLocal_spec h
  simp only [getFreeIdentifier] at hs hc hl
  refine ⟨hs, by simp only [hc]; omega, [(⟨a.current_identifier + 1⟩, ty)], ?_, ?_, by simp⟩
  · simpa only [localsOf] using hl
  · intro p hp
    simp only [List.mem_singleton] at hp
    subst hp
    simp only [hc]
    omega

theorem resolveLiteral_state {a : Analyzer} {lit : ast.Literal} {te : TypedExpression}
    {a' : Analyzer} (h : resolveLiteral a lit = .ok (te, a')) : a' = a := by
  unfold resolveLiteral at h
  split at h
  · cases h
    rfl
  · cases h
    rfl
  · split at h
    · cases h
    · split at h
      · cases h
      · split at h <;> (cases h; rfl)

mutual

theorem resolveExpression_inv (a : Analyzer) (e : ast.Expression) (te : TypedExpression)
    (a' : Analyzer) (h : resolveExpression a e = .ok (te, a')) :
    a'.scopes = a.scopes ∧ LocalsInv a a' :=
  match e with
  | .Literal lit => by
      simp only [resolveExpression] at h
      cases resolveLiteral_state h
      exact ⟨rfl, LocalsInv.locals_refl a⟩
  | .Prefix op e1 => by
      simp only [resolveExpression] at h
      obtain ⟨⟨te1, a1⟩, h1, h2⟩ := except_bind_eq_ok h
      have hrec := resolveExpression_inv a e1 te1 a1 h1
      cases op with
      | Negate =>
          obtain ⟨ie, _, hok⟩ := except_bind_eq_ok h2
          cases hok
          exact hrec
      | Not =>
          obtain ⟨be, _, hok⟩ := except_bind_eq_ok h2
          cases hok
          exact hrec
  | .BinaryOp left op right => by
      simp only [resolveExpression] at h
      obtain ⟨⟨lte, a1⟩, h1, h2⟩ := except_bind_eq_ok h
      obtain ⟨⟨rte, a2⟩, h3, h4⟩ := except_bind_eq_ok h2
      have hrec1 := resolveExpression_inv a left lte a1 h1
      have hrec2 := resolveExpression_inv a1 right rte a2 h3
      have hcomp : a2.scopes = a.scopes ∧ LocalsInv a a2 :=
        ⟨hrec2.1.trans hrec1.1, hrec1.2.locals_trans hrec2.2⟩
      cases lte with
      | Int li =>
          obtain ⟨ri, _, h5⟩ := except_bind_eq_ok h4
          revert h5
          cases intBinaryOfAst op with
          | none => intro h5; cases h5
          | some iop => intro h5; cases h5; exact hcomp
      | Boolean lb =>
          obtain ⟨rb, _, h5⟩ := except_bind_eq_ok h4
          revert h5
          cases booleanOperatorOfAst op with
          | none => intro h5; cases h5
          | some bop =>
              intro h5
              obtain ⟨a4, hpush, hok⟩ := except_bind_eq_ok h5
              cases hok
              have hfp := freshPush_inv hpush
              exact ⟨hfp.1.trans hcomp.1, hcomp.2.locals_trans hfp.2⟩
  | .Comparison left chains => by
      simp only [resolveExpression] at h
      obtain ⟨⟨lte, a1⟩, h1, h2⟩ := except_bind_eq_ok h
      obtain ⟨li, _, h3⟩ := except_bind_eq_ok h2
      obtain ⟨⟨cs, a2⟩, h4, hok⟩ := except_bind_eq_ok h3
      cases hok
      have hrec1 := resolveExpression_inv a left lte a1 h1
      have hrec2 := resolveChains_inv a1 chains cs a2 h4
      exact ⟨hrec2.1.trans hrec1.1, hrec1.2.locals_trans hrec2.2⟩
termination_by structural e

theorem resolveChains_inv (a : Analyzer) (chains : List (ast.ComparisonOp × ast.Expression))
    (cs : List (ir.IntComparisonOp × ir.IntExpression)) (a' : Analyzer)
    (h : resolveChains a chains = .ok (cs, a')) :
    a'.scopes = a.scopes ∧ LocalsInv a a' :=
  match chains with
  | [] => by
      simp only [resolveChains] at h
      cases h
      exact ⟨rfl, LocalsInv.locals_refl a⟩
  | (op, e) :: rest => by
      simp only [resolveChains] at h
      obtain ⟨⟨te1, a1⟩, h1, h2⟩ := except_bind_eq_ok h
      obtain ⟨ie, _, h3⟩ := except_bind_eq_ok h2
      obtain ⟨⟨rs, a2⟩, h4, hok⟩ := except_bind_eq_ok h3
      cases hok
      have hrec1 := resolveExpression_inv a e te1 a1 h1
      have hrec2 := resolveChains_inv a1 rest rs a2 h4
      exact ⟨hrec2.1.trans hrec1.1, hrec1.2.locals_trans hrec2.2⟩
termination_by structural chains

end

theorem localsOf_update_scopes (a : Analyzer) (s : List VarScope) :
    localsOf { a with scopes := s } = localsOf a := rfl

theorem localsOf_update_counter (a : Analyzer) (c : Nat) :
    localsOf { a with current_identifier := c } = localsOf a := rfl

theorem resolvePrintStatement_inv (a : Analyzer) (e : ast.Expression)
    (p : ir.PrintStatement) (a' : Analyzer)
    (h : resolvePrintStatement a e = .ok (p, a')) :
    a'.scopes = a.scopes ∧ LocalsInv a a' := by
  unfold resolvePrintStatement at h
  obtain ⟨tea, h1, h2⟩ := except_bind_eq_ok h
  obtain ⟨te, a1⟩ := tea
  have hrec := resolveExpression_inv a e te a1 h1
  revert h2
  cases te <;> (intro h2; cases h2; exact hrec)

theorem resolveStatement_inv (a : Analyzer) (st : ast.Statement) (irSt : ir.Statement)
    (a' : Analyzer) (h : resolveStatement a st = .ok (irSt, a')) :
    a'.scopes.length = a.scopes.length ∧ LocalsInv a a' := by
  cases st with
  | Print e =>
      simp only [resolveStatement] at h
      obtain ⟨pa, h1, h2⟩ := except_bind_eq_ok h
      obtain ⟨p, a1⟩ := pa
      cases h2
      have l := resolvePrintStatement_inv a e p a1 h1
      exact ⟨by rw [l.1], l.2⟩
  | Assert e message =>
      simp only [resolveStatement] at h
      obtain ⟨tea, h1, h2⟩ := except_bind_eq_ok h
      obtain ⟨te, a1⟩ := tea
      obtain ⟨be, _, hok⟩ := except_bind_eq_ok h2
      cases hok
      have l := resolveExpression_inv a e te a1 h1
      exact ⟨by rw [l.1], l.2⟩
  | Declaration name e =>
      simp only [resolveStatement, getFreeIdentifier] at h
      obtain ⟨tea, h1, h2⟩ := except_bind_eq_ok h
      obtain ⟨te, a2⟩ := tea
      obtain ⟨a3, hp, h3⟩ := except_bind_eq_ok h2
      have hexp := resolveExpression_inv _ e te a2 h1
      have hpush := pushLocal_spec hp
      revert h3
      cases hsc : a3.scopes with
      | nil => intro h3; cases h3
      | cons scope outer =>
          intro h3
          cases h3
          have hsc2 : a2.scopes = a.scopes := hexp.1
          have hlen : (scope :: outer).length = a.scopes.length := by
            rw [← hsc, hpush.1, hsc2]
          obtain ⟨hc, Δ, hl, hb, hn⟩ := hexp.2
          dsimp only at hc hl hb
          have h23 : a3.current_identifier = a2.current_identifier := hpush.2.1
          constructor
          · simpa using hlen
          · refine ⟨?_, Δ ++ [(⟨a.current_identifier + 1⟩, te.to_var_type)], ?_, ?_, ?_⟩
            · dsimp only
              omega
            · rw [localsOf_update_scopes, hpush.2.2, hl, localsOf_update_counter,
                List.append_assoc]
            · intro q hq
              dsimp only
              rcases List.mem_append.mp hq with hq | hq
              · have := hb q hq
                omega
              · simp only [List.mem_singleton] at hq
                subst hq
                dsimp only
                omega
            · rw [List.map_append]
              refine hn.append (by simp) ?_
              intro x hx1 hx2
              obtain ⟨q, hq, rfl⟩ := List.mem_map.mp hx1
              have := hb q hq
              simp only [List.map_cons, List.map_nil, List.mem_singleton] at hx2
              omega
  | Assignment name e =>
      simp only [resolveStatement] at h
      obtain ⟨tea, h1, h2⟩ := except_bind_eq_ok h
      obtain ⟨te, a1⟩ := tea
      have hexp := resolveExpression_inv a e te a1 h1
      revert h2
      split
      · intro h2; cases h2
      · split
        · intro h2; cases h2
        · split
          · intro h2; cases h2
          · intro h2
            cases h2
            exact ⟨by rw [hexp.1], hexp.2⟩

theorem resolveStatementsLoop_inv (sts : List ast.Statement) :
    ∀ (a : Analyzer) (irs : List ir.Statement) (a' : Analyzer),
      resolveStatementsLoop a sts = .ok (irs, a') →
      a'.scopes.length = a.scopes.length ∧ LocalsInv a a' := by
  induction sts with
  | nil =>
      intro a irs a' h
      simp only [resolveStatementsLoop] at h
      cases h
      exact ⟨rfl, LocalsInv.locals_refl a⟩
  | cons st rest ih =>
      intro a irs a' h
      simp only [resolveStatementsLoop] at h
      obtain ⟨sa, h1, h2⟩ := except_bind_eq_ok h
      obtain ⟨irSt, a1⟩ := sa
      obtain ⟨ra, h3, hok⟩ := except_bind_eq_ok h2
      obtain ⟨irRest, a2⟩ := ra
      cases hok
      have l1 := resolveStatement_inv a st irSt a1 h1
      have l2 := ih a1 irRest a2 h3
      exact ⟨l2.1.trans l1.1, l1.2.locals_trans l2.2⟩

/-- Locals table of an emitted IR function. -/
def fnLocals : ir.ToplevelStatement → List (ir.VariableIdentifier × ir.VarType)
  | .Function _ _ locals => locals

theorem resolveTopLevelStatement_spec (a : Analyzer) (t : ast.ToplevelStatement)
    (fn : ir.ToplevelStatement) (a' : Analyzer)
    (h : resolveTopLevelStatement a t = .ok (fn, a')) :
    a'.scopes.length = a.scopes.length + 1 ∧
    a.current_identifier ≤ a'.current_identifier ∧
    (∀ p ∈ fnLocals fn, a.current_identifier < p.1.id ∧ p.1.id ≤ a'.current_identifier) ∧
    ((fnLocals fn).map (fun p => p.1.id)).Nodup := by
  cases t with
  | MainFunction stmts =>
      simp only [resolveTopLevelStatement] at h
      obtain ⟨sa, h1, h2⟩ := except_bind_eq_ok h
      obtain ⟨irStatements, a2⟩ := sa
      have l := resolveStatementsLoop_inv stmts _ irStatements a2 h1
      revert h2
      cases hm : a2.function_metadata with
      | none => intro h2; cases h2
      | some m =>
          intro h2
          cases h2
          obtain ⟨hc, Δ, hl, hb, hn⟩ := l.2
          dsimp only at hc hl hb
          have hstart : localsOf ⟨(⟨[]⟩ : VarScope) :: a.scopes,
              some (⟨[]⟩ : FunctionMetadata), a.current_identifier⟩ = [] := rfl
          have hend : localsOf a2 = m.locals := by
            unfold localsOf
            rw [hm]
          have hml : m.locals = Δ := by
            rw [← hend, hl, hstart, List.nil_append]
          refine ⟨by simpa using l.1, hc, ?_, ?_⟩
          · intro p hp
            refine hb p ?_
            rw [← hml]
            exact hp
          · simpa [fnLocals, hml] using hn

theorem resolveModuleLoop_spec (ts : List ast.ToplevelStatement) :
    ∀ (a : Analyzer) (irts : List ir.ToplevelStatement) (a' : Analyzer),
      resolveModuleLoop a ts = .ok (irts, a') →
      a.current_identifier ≤ a'.current_identifier ∧
      (∀ p ∈ irts.flatMap fnLocals,
        a.current_identifier < p.1.id ∧ p.1.id ≤ a'.current_identifier) ∧
      ((irts.flatMap fnLocals).map (fun p => p.1.id)).Nodup := by
  induction ts with
  | nil =>
      intro a irts a' h
      simp only [resolveModuleLoop] at h
      cases h
      exact ⟨le_refl _, by simp, by simp⟩
  | cons t rest ih =>
      intro a irts a' h
      simp only [resolveModuleLoop] at h
      obtain ⟨fa, h1, h2⟩ := except_bind_eq_ok h
      obtain ⟨fn, a1⟩ := fa
      obtain ⟨ra, h3, hok⟩ := except_bind_eq_ok h2
      obtain ⟨fns, a2⟩ := ra
      cases hok
      dsimp only
      obtain ⟨_, hc1, hb1, hn1⟩ := resolveTopLevelStatement_spec a t fn a1 h1
      obtain ⟨hc2, hb2, hn2⟩ := ih a1 fns a2 h3
      refine ⟨le_trans hc1 hc2, ?_, ?_⟩
      · intro p hp
        rw [List.flatMap_cons] at hp
        rcases List.mem_append.mp hp with hp | hp
        · have := hb1 p hp
          omega
        · have := hb2 p hp
          omega
      · rw [List.flatMap_cons, List.map_append]
        refine hn1.append hn2 ?_
        intro x hx1 hx2
        obtain ⟨p1, hp1, rfl⟩ := List.mem_map.mp hx1
        obtain ⟨p2, hp2, heq⟩ := List.mem_map.mp hx2
        have b1 := hb1 p1 hp1
        have b2 := hb2 p2 hp2
        omega

/-- All locals of a resolved module, every function's table concatenated in
order. -/
def moduleLocals (m : ir.Module) : List (ir.VariableIdentifier × ir.VarType) :=
  m.statements.flatMap fnLocals

/-! ## C5 — module-wide identifier uniqueness -/

/-- C5: for every module resolved by one `Analyzer` run, all variable
identifiers recorded in the functions' locals tables — declared variables
and synthesized short-circuit temporaries alike, across all functions of the
module — are pairwise distinct, and the identifier counter is monotone over
the whole module compilation (never reset or reused mid-module). -/
theorem C5_identifier_uniqueness :
    ∀ (a : Analyzer) (m : ast.Module) (irm : ir.Module) (a' : Analyzer),
      resolveModule a m = .ok (irm, a') →
      a.current_identifier ≤ a'.current_identifier ∧
      ((moduleLocals irm).map (fun p => p.1.id)).Nodup := by
  intro a m irm a' h
  unfold resolveModule at h
  obtain ⟨sa, h1, hok⟩ := except_bind_eq_ok h
  obtain ⟨sts, a1⟩ := sa
  cases hok
  obtain ⟨hc, _, hn⟩ := resolveModuleLoop_spec m.statements a sts _ h1
  exact ⟨hc, hn⟩

/-- Witness for C5: a module of two functions — one declared variable in the
first, a declared variable plus a synthesized short-circuit temporary in the
second; the three identifiers are pairwise distinct. -/
theorem C5_identifier_uniqueness_witness :
    Analyzer.new.current_identifier ≤ 3 ∧
    ((moduleLocals ⟨[.Function "main" [.Assignment ⟨1⟩ (.Int (.Literal 1))] [(⟨1⟩, .Int)],
        .Function "main"
          [.Assignment ⟨2⟩ (.Boolean (.Operator ⟨3⟩ (.Literal true) .Or (.Literal false)))]
          [(⟨3⟩, .Boolean), (⟨2⟩, .Boolean)]]⟩).map (fun p => p.1.id)).Nodup :=
  C5_identifier_uniqueness Analyzer.new
    ⟨[.MainFunction [.Declaration "x" (.Literal (.Integer 1))],
      .MainFunction [.Declaration "y" (.BinaryOp (.Literal (.Boolean true)) .Or
        (.Literal (.Boolean false)))]]⟩
    ⟨[.Function "main" [.Assignment ⟨1⟩ (.Int (.Literal 1))] [(⟨1⟩, .Int)],
      .Function "main"
        [.Assignment ⟨2⟩ (.Boolean (.Operator ⟨3⟩ (.Literal true) .Or (.Literal false)))]
        [(⟨3⟩, .Boolean), (⟨2⟩, .Boolean)]]⟩
    ⟨[⟨[("y", ⟨⟨2⟩, .Boolean⟩)]⟩, ⟨[("x", ⟨⟨1⟩, .Int⟩)]⟩],
     some ⟨[(⟨3⟩, .Boolean), (⟨2⟩, .Boolean)]⟩, 3⟩ rfl

/-! ## C3 — scope-stack lookup and nesting

The claim states that a bare identifier is resolved by searching every
scope frame from innermost outward (failing only when NO frame binds the
name) and that the frame pushed on entering a function is popped on leaving
it.  The code does neither: `resolve_literal` consults only
`scopes.last()`, and `resolve_top_level_statement` pushes a frame it never
pops. -/

/-- C3 counterexample: resolving a one-function module from a fresh
analyzer leaves the function's frame on the stack after leaving the
function (stack length 1, entered with 0 — the frame is not popped); upon
entering a second function (an empty frame pushed on top, exactly the state
`resolve_top_level_statement` builds), resolving the bare identifier `x`
fails with a TypeError even though a frame on the stack still binds `x` —
lookup does not search from innermost outward, so resolution of the
two-function module fails. -/
theorem C3_scope_counterexample :
    resolveTopLevelStatement Analyzer.new
        (.MainFunction [.Declaration "x" (.Literal (.Integer 1))])
      = .ok (.Function "main" [.Assignment ⟨1⟩ (.Int (.Literal 1))] [(⟨1⟩, .Int)],
             ⟨[⟨[("x", ⟨⟨1⟩, .Int⟩)]⟩], some ⟨[(⟨1⟩, .Int)]⟩, 1⟩) ∧
    Analyzer.new.scopes.length = 0 ∧
    (⟨[⟨[("x", ⟨⟨1⟩, .Int⟩)]⟩], some ⟨[(⟨1⟩, .Int)]⟩, 1⟩ : Analyzer).scopes.length = 1 ∧
    resolveLiteral ⟨(⟨[]⟩ : VarScope) :: [⟨[("x", ⟨⟨1⟩, .Int⟩)]⟩], some ⟨[]⟩, 1⟩ (.Variable "x")
      = .error (.typeError "variable x not found") ∧
    ((⟨[]⟩ : VarScope) :: [⟨[("x", ⟨⟨1⟩, .Int⟩)]⟩]).any (fun f => (f.get "x").isSome) = true ∧
    resolveModule Analyzer.new
        ⟨[.MainFunction [.Declaration "x" (.Literal (.Integer 1))],
          .MainFunction [.Print (.Literal (.Variable "x"))]]⟩
      = .error (.typeError "variable x not found") :=
  ⟨rfl, rfl, rfl, rfl, rfl, rfl⟩

/-- C3 (amended): a bare identifier is resolved by consulting ONLY the
innermost scope frame — succeeding on the binding found there and failing
with a TypeError when that frame does not bind the name, even if an outer
frame does — and the frame pushed on entering a function is never popped:
the scope stack grows by exactly one frame per resolved function.  A name
declared in one function's frame is still invisible in a later function's
body, because lookup ignores every outer frame. -/
theorem C3_scope_lookup_amended :
    (∀ (a : Analyzer) (name : String) (scope : VarScope) (outer : List VarScope),
      a.scopes = scope :: outer →
      resolveLiteral a (.Variable name)
        = (match scope.get name with
           | none => .error (.typeError ("variable " ++ name ++ " not found"))
           | some varInfo =>
               match varInfo.var_type with
               | .Int => .ok (.Int (.Var varInfo.identifier), a)
               | .Boolean => .ok (.Boolean (.Var varInfo.identifier), a))) ∧
    (∀ (a : Analyzer) (t : ast.ToplevelStatement) (fn : ir.ToplevelStatement) (a' : Analyzer),
      resolveTopLevelStatement a t = .ok (fn, a') →
      a'.scopes.length = a.scopes.length + 1) := by
  constructor
  · intro a name scope outer hs
    unfold resolveLiteral
    rw [hs]
    rfl
  · intro a t fn a' h
    exact (resolveTopLevelStatement_spec a t fn a' h).1

/-- Witness for C3: the amended lookup clause applied at a one-frame state
binding `x`, and the push-without-pop clause applied at the one-function
module resolution. -/
theorem C3_scope_lookup_amended_witness :
    resolveLiteral ⟨[⟨[("x", ⟨⟨1⟩, ir.VarType.Int⟩)]⟩], none, 1⟩ (.Variable "x")
      = .ok (.Int (.Var ⟨1⟩), ⟨[⟨[("x", ⟨⟨1⟩, ir.VarType.Int⟩)]⟩], none, 1⟩) ∧
    (⟨[⟨[("x", ⟨⟨1⟩, ir.VarType.Int⟩)]⟩], some ⟨[(⟨1⟩, ir.VarType.Int)]⟩, 1⟩ : Analyzer).scopes.length
      = Analyzer.new.scopes.length + 1 := by
  constructor
  · have h := C3_scope_lookup_amended.1 ⟨[⟨[("x", ⟨⟨1⟩, .Int⟩)]⟩], none, 1⟩ "x"
      ⟨[("x", ⟨⟨1⟩, .Int⟩)]⟩ [] rfl
    simpa using h
  · exact C3_scope_lookup_amended.2 Analyzer.new
      (.MainFunction [.Declaration "x" (.Literal (.Integer 1))])
      (.Function "main" [.Assignment ⟨1⟩ (.Int (.Literal 1))] [(⟨1⟩, .Int)])
      ⟨[⟨[("x", ⟨⟨1⟩, .Int⟩)]⟩], some ⟨[(⟨1⟩, .Int)]⟩, 1⟩ rfl

/-! ## Code-generator helper lemmas -/

@[simp]
theorem genm_bind_def {α β : Type} (x : GenM α) (f : α → GenM β) :
    x >>= f = bindG x f := rfl

@[simp]
theorem genm_pure_def {α : Type} (a : α) : (pure a : GenM α) = pureG a := rfl

theorem bindG_eq_ok {α β : Type} {x : GenM α} {f : α → GenM β} {s s' : GenState} {b : β}
    (h : bindG x f s = .ok (b, s')) :
    ∃ a s1, x s = .ok (a, s1) ∧ f a s1 = .ok (b, s') := by
  unfold bindG at h
  revert h
  cases hx : x s with
  | ok p =>
      obtain ⟨a, s1⟩ := p
      intro h
      exact ⟨a, s1, rfl, h⟩
  | error e =>
      intro h
      cases h

theorem pureG_eq_ok {α : Type} {a b : α} {s s' : GenState}
    (h : pureG a s = .ok (b, s')) : b = a ∧ s' = s := by
  cases h
  exact ⟨rfl, rfl⟩

/-- Append a sequence of instructions to one block of the block table. -/
def appendList (bs : List (Nat × List Instr)) (b : Nat) (Δ : List Instr) :
    List (Nat × List Instr) :=
  bs.map (fun p => if p.1 = b then (p.1, p.2 ++ Δ) else p)

@[simp]
theorem appendList_nil (bs : List (Nat × List Instr)) (b : Nat) :
    appendList bs b [] = bs := by
  simp [appendList]

theorem appendToBlock_as_appendList (bs : List (Nat × List Instr)) (b : Nat) (i : Instr) :
    appendToBlock bs b i = appendList bs b [i] := rfl

theorem appendList_append (bs : List (Nat × List Instr)) (b : Nat) (Δ1 Δ2 : List Instr) :
    appendList (appendList bs b Δ1) b Δ2 = appendList bs b (Δ1 ++ Δ2) := by
  unfold appendList
  rw [List.map_map]
  apply List.map_congr_left
  intro p _
  by_cases hp : p.1 = b <;> simp [hp, List.append_assoc]

/-- The builder moved from `s` to `s'` by appending the instructions `Δ` to
the current block only: no block created, no repositioning, nothing else
changed (the fresh-value counter aside). -/
def Straight (s s' : GenState) (Δ : List Instr) : Prop :=
  ∃ nv, s.nextVal ≤ nv ∧
    s' = { s with blocks := appendList s.blocks s.current Δ, nextVal := nv }

theorem Straight.straight_refl (s : GenState) : Straight s s [] :=
  ⟨s.nextVal, le_refl _, by simp⟩

theorem Straight.straight_trans {s s1 s2 : GenState} {Δ1 Δ2 : List Instr}
    (h1 : Straight s s1 Δ1) (h2 : Straight s1 s2 Δ2) : Straight s s2 (Δ1 ++ Δ2) := by
  obtain ⟨nv1, hv1, rfl⟩ := h1
  obtain ⟨nv2, hv2, rfl⟩ := h2
  dsimp only at hv2 ⊢
  refine ⟨nv2, by omega, ?_⟩
  rw [appendList_append]

/-- One `emit` step extends a straight-line segment. -/
theorem Straight.emitStep {s s1 s' : GenState} {Δ : List Instr} {mk : Nat → Instr} {v : Value}
    (h1 : Straight s s1 Δ) (h : emit mk s1 = .ok (v, s')) :
    Straight s s' (Δ ++ [mk s1.nextVal]) ∧ v = .ref s1.nextVal := by
  have he : emit mk s1 = .ok (.ref s1.nextVal,
      { s1 with blocks := appendToBlock s1.blocks s1.current (mk s1.nextVal),
                nextVal := s1.nextVal + 1 }) := rfl
  rw [he] at h
  cases h
  obtain ⟨nv1, hv1, rfl⟩ := h1
  dsimp only
  constructor
  · refine ⟨nv1 + 1, by omega, ?_⟩
    simp only [appendToBlock_as_appendList, appendList_append]
  · rfl

theorem getLocalVar_ok {id : ir.VariableIdentifier} {s s1 : GenState} {ptr : Value}
    (h : getLocalVar id s = .ok (ptr, s1)) :
    s1 = s ∧ ((s.local_vars.find? (fun p => p.1 = id.id)).map (fun p => p.2)) = some ptr := by
  unfold getLocalVar at h
  revert h
  cases hf : (s.local_vars.find? (fun p => p.1 = id.id)).map (fun p => p.2) with
  | none => intro h; cases h
  | some q => intro h; cases h; exact ⟨rfl, rfl⟩

/-- Instructions an integer expression may emit: pure value computations. -/
def intValInstr : Instr → Bool
  | .neg _ _ => true
  | .add _ _ _ => true
  | .sub _ _ _ => true
  | .mul _ _ _ => true
  | .sdiv _ _ _ => true
  | .load _ _ => true
  | _ => false

/-- `compile_int_expression` is straight-line: it only appends value
instructions to the current block. -/
theorem compileIntExpression_straight (e : ir.IntExpression) :
    ∀ (s : GenState) (v : Value) (s' : GenState),
      compileIntExpression e s = .ok (v, s') →
      ∃ Δ, Straight s s' Δ ∧ ∀ i ∈ Δ, intValInstr i = true := by
  induction e with
  | Literal val =>
      intro s v s' h
      simp only [compileIntExpression, genm_pure_def] at h
      obtain ⟨rfl, rfl⟩ := pureG_eq_ok h
      exact ⟨[], Straight.straight_refl _, by simp⟩
  | Negate e1 ih =>
      intro s v s' h
      simp only [compileIntExpression, genm_bind_def] at h
      obtain ⟨v1, s1, h1, h2⟩ := bindG_eq_ok h
      obtain ⟨Δ, hst, hP⟩ := ih s v1 s1 h1
      obtain ⟨hst', rfl⟩ := hst.emitStep h2
      refine ⟨Δ ++ [.neg s1.nextVal v1], hst', ?_⟩
      intro i hi
      rcases List.mem_append.mp hi with hi | hi
      · exact hP i hi
      · simp only [List.mem_singleton] at hi
        subst hi
        rfl
  | BinaryOperation l op r ihl ihr =>
      intro s v s' h
      simp only [compileIntExpression, genm_bind_def] at h
      obtain ⟨vl, s1, h1, h2⟩ := bindG_eq_ok h
      obtain ⟨vr, s2, h3, h4⟩ := bindG_eq_ok h2
      obtain ⟨Δ1, hst1, hP1⟩ := ihl s vl s1 h1
      obtain ⟨Δ2, hst2, hP2⟩ := ihr s1 vr s2 h3
      have hst := hst1.straight_trans hst2
      have hmem : ∀ i ∈ Δ1 ++ Δ2, intValInstr i = true := by
        intro i hi
        rcases List.mem_append.mp hi with hi | hi
        · exact hP1 i hi
        · exact hP2 i hi
      cases op <;>
        · obtain ⟨hst', rfl⟩ := hst.emitStep h4
          refine ⟨_, hst', ?_⟩
          intro i hi
          rcases List.mem_append.mp hi with hi | hi
          · exact hmem i hi
          · simp only [List.mem_singleton] at hi
            subst hi
            rfl
  | Var id =>
      intro s v s' h
      simp only [compileIntExpression, genm_bind_def] at h
      obtain ⟨ptr, s1, h1, h2⟩ := bindG_eq_ok h
      obtain ⟨rfl, _⟩ := getLocalVar_ok h1
      obtain ⟨hst', rfl⟩ := (Straight.straight_refl s1).emitStep h2
      refine ⟨_, hst', ?_⟩
      intro i hi
      simp only [List.nil_append, List.mem_singleton] at hi
      subst hi
      rfl

/-- Arguments of the comparison instructions of an instruction sequence. -/
def icmpArgs (Δ : List Instr) : List (Value × Value) :=
  Δ.filterMap (fun i => match i with
    | .icmp _ _ l r => some (l, r)
    | _ => none)

/-- Predicates of the comparison instructions, in order. -/
def icmpPreds (Δ : List Instr) : List Pred :=
  Δ.filterMap (fun i => match i with
    | .icmp _ p _ _ => some p
    | _ => none)

/-- Result values of the comparison instructions, in order. -/
def icmpRefs (Δ : List Instr) : List Value :=
  Δ.filterMap (fun i => match i with
    | .icmp n _ _ _ => some (.ref n)
    | _ => none)

/-- Arguments of the bitwise-AND instructions, in order. -/
def bandArgs (Δ : List Instr) : List (Value × Value) :=
  Δ.filterMap (fun i => match i with
    | .band _ l r => some (l, r)
    | _ => none)

/-- Control-transfer instructions (a branch, a return or unreachable). -/
def isBranchInstr : Instr → Bool
  | .condBr _ _ _ => true
  | .br _ => true
  | .retI32 _ => true
  | .unreachableTerm => true
  | _ => false

def isBandInstr : Instr → Bool
  | .band _ _ _ => true
  | _ => false

def isIcmpInstr : Instr → Bool
  | .icmp _ _ _ _ => true
  | _ => false

theorem icmpArgs_append (d1 d2 : List Instr) :
    icmpArgs (d1 ++ d2) = icmpArgs d1 ++ icmpArgs d2 := by
  simp [icmpArgs, List.filterMap_append]

theorem icmpPreds_append (d1 d2 : List Instr) :
    icmpPreds (d1 ++ d2) = icmpPreds d1 ++ icmpPreds d2 := by
  simp [icmpPreds, List.filterMap_append]

theorem icmpRefs_append (d1 d2 : List Instr) :
    icmpRefs (d1 ++ d2) = icmpRefs d1 ++ icmpRefs d2 := by
  simp [icmpRefs, List.filterMap_append]

theorem bandArgs_append (d1 d2 : List Instr) :
    bandArgs (d1 ++ d2) = bandArgs d1 ++ bandArgs d2 := by
  simp [bandArgs, List.filterMap_append]

theorem filters_singleton_int (i : Instr) (h : intValInstr i = true) :
    icmpArgs [i] = [] ∧ icmpPreds [i] = [] ∧ icmpRefs [i] = [] ∧ bandArgs [i] = [] := by
  cases i <;>
    first
      | exact ⟨rfl, rfl, rfl, rfl⟩
      | simp [intValInstr] at h

theorem filters_singleton_band (i : Instr) (h : isBandInstr i = true) :
    icmpArgs [i] = [] ∧ icmpPreds [i] = [] ∧ icmpRefs [i] = [] := by
  cases i <;>
    first
      | exact ⟨rfl, rfl, rfl⟩
      | simp [isBandInstr] at h

theorem filterMaps_nil_of_int {Δ : List Instr} (h : ∀ i ∈ Δ, intValInstr i = true) :
    icmpArgs Δ = [] ∧ icmpPreds Δ = [] ∧ icmpRefs Δ = [] ∧ bandArgs Δ = [] := by
  induction Δ with
  | nil => exact ⟨rfl, rfl, rfl, rfl⟩
  | cons i rest ih =>
      have hi := filters_singleton_int i (h i (by simp))
      have hr := ih (fun j hj => h j (by simp [hj]))
      have hc : i :: rest = [i] ++ rest := rfl
      rw [hc, icmpArgs_append, icmpPreds_append, icmpRefs_append, bandArgs_append,
        hi.1, hi.2.1, hi.2.2.1, hi.2.2.2, hr.1, hr.2.1, hr.2.2.1, hr.2.2.2]
      exact ⟨rfl, rfl, rfl, rfl⟩

theorem filterMaps_nil_of_band {Δ : List Instr} (h : ∀ i ∈ Δ, isBandInstr i = true) :
    icmpArgs Δ = [] ∧ icmpPreds Δ = [] ∧ icmpRefs Δ = [] := by
  induction Δ with
  | nil => exact ⟨rfl, rfl, rfl⟩
  | cons i rest ih =>
      have hi := filters_singleton_band i (h i (by simp))
      have hr := ih (fun j hj => h j (by simp [hj]))
      have hc : i :: rest = [i] ++ rest := rfl
      rw [hc, icmpArgs_append, icmpPreds_append, icmpRefs_append,
        hi.1, hi.2.1, hi.2.2, hr.1, hr.2.1, hr.2.2]
      exact ⟨rfl, rfl, rfl⟩

theorem not_branch_of_val (i : Instr)
    (h : intValInstr i = true ∨ isIcmpInstr i = true ∨ isBandInstr i = true) :
    isBranchInstr i = false := by
  cases i <;> simp_all [intValInstr, isIcmpInstr, isBandInstr, isBranchInstr]

/-- The per-link loop of `compile_comparison`: it emits straight-line code
in which the comparison instructions compare exactly the adjacent pairs of
(left value, operand values) — each middle operand value shared as the
right argument of one comparison and the left argument of the next — with
the links' operators in order, and the returned parts are exactly the
comparisons' result values. -/
theorem compileComparisonChains_spec (chains : List (ir.IntComparisonOp × ir.IntExpression)) :
    ∀ (currentLeft : Value) (s : GenState) (parts : List Value) (s' : GenState),
      compileComparisonChains currentLeft chains s = .ok (parts, s') →
      ∃ Δ vs, Straight s s' Δ ∧
        vs.length = chains.length ∧
        parts.length = chains.length ∧
        (∀ i ∈ Δ, intValInstr i = true ∨ isIcmpInstr i = true) ∧
        icmpArgs Δ = List.zip (currentLeft :: vs) vs ∧
        icmpPreds Δ = chains.map (fun c => predOfIntComparison c.1) ∧
        icmpRefs Δ = parts ∧
        bandArgs Δ = [] := by
  induction chains with
  | nil =>
      intro currentLeft s parts s' h
      simp only [compileComparisonChains, genm_pure_def] at h
      obtain ⟨rfl, rfl⟩ := pureG_eq_ok h
      exact ⟨[], [], Straight.straight_refl _, rfl, rfl, by simp,
        by simp [icmpArgs], by simp [icmpPreds], by simp [icmpRefs], by simp [bandArgs]⟩
  | cons c rest ih =>
      obtain ⟨op, rightSide⟩ := c
      intro currentLeft s parts s' h
      simp only [compileComparisonChains, genm_bind_def] at h
      obtain ⟨rv, s1, h1, h2⟩ := bindG_eq_ok h
      obtain ⟨part, s2, h3, h4⟩ := bindG_eq_ok h2
      obtain ⟨restParts, s3, h5, h6⟩ := bindG_eq_ok h4
      obtain ⟨rfl, rfl⟩ := pureG_eq_ok h6
      obtain ⟨Δ1, hst1, hP1⟩ := compileIntExpression_straight rightSide s rv s1 h1
      obtain ⟨hstE, rfl⟩ := hst1.emitStep h3
      obtain ⟨Δ2, vs2, hst2, hlen2, hplen2, hP2, hargs2, hpreds2, hrefs2, hband2⟩ :=
        ih rv s2 restParts _ h5
      obtain ⟨hn1, hn2, hn3, hn4⟩ := filterMaps_nil_of_int hP1
      refine ⟨(Δ1 ++ [.icmp s1.nextVal (predOfIntComparison op) currentLeft rv]) ++ Δ2,
        rv :: vs2, hstE.straight_trans hst2, by simp [hlen2], by simp [hplen2], ?_, ?_, ?_, ?_, ?_⟩
      · intro i hi
        simp only [List.append_assoc, List.mem_append, List.mem_singleton] at hi
        rcases hi with hi | hi | hi
        · exact Or.inl (hP1 i hi)
        · subst hi
          exact Or.inr rfl
        · exact hP2 i hi
      · rw [icmpArgs_append, icmpArgs_append, hn1, hargs2, List.zip_cons_cons]
        rfl
      · rw [icmpPreds_append, icmpPreds_append, hn2, hpreds2, List.map_cons]
        rfl
      · rw [icmpRefs_append, icmpRefs_append, hn3, hrefs2]
        rfl
      · rw [bandArgs_append, bandArgs_append, hn4, hband2]
        rfl


/-- The result-combining loop of `compile_comparison`: starting from the first
link's value it emits one bitwise-AND instruction per remaining link — each AND
combining the running result with the next link's value — and returns the last
running result (the initial value when no further links remain). -/
theorem foldAnd_spec (parts : List Value) :
    ∀ (result : Value) (s : GenState) (v : Value) (s' : GenState),
      foldAnd result parts s = .ok (v, s') →
      ∃ Δ ws, Straight s s' Δ ∧
        ws.length = parts.length ∧
        (∀ i ∈ Δ, isBandInstr i = true) ∧
        bandArgs Δ = List.zip (result :: ws) parts ∧
        (result :: ws).getLast? = some v := by
  induction parts with
  | nil =>
      intro result s v s' h
      simp only [foldAnd, genm_pure_def] at h
      obtain ⟨rfl, rfl⟩ := pureG_eq_ok h
      exact ⟨[], [], Straight.straight_refl _, rfl, by simp, rfl, rfl⟩
  | cons part rest ih =>
      intro result s v s' h
      simp only [foldAnd, genm_bind_def] at h
      obtain ⟨v1, s1, h1, h2⟩ := bindG_eq_ok h
      obtain ⟨hst1, rfl⟩ := (Straight.straight_refl s).emitStep h1
      obtain ⟨Δ2, ws2, hst2, hlen2, hP2, hband2, hlast2⟩ := ih _ s1 v s' h2
      refine ⟨[Instr.band s.nextVal result part] ++ Δ2, Value.ref s.nextVal :: ws2,
        hst1.straight_trans hst2, by simp [hlen2], ?_, ?_, ?_⟩
      · intro i hi
        rcases List.mem_append.mp hi with hi | hi
        · simp only [List.mem_singleton] at hi
          subst hi
          rfl
        · exact hP2 i hi
      · rw [bandArgs_append, hband2, List.zip_cons_cons]
        rfl
      · rw [List.getLast?_cons_cons]
        exact hlast2

/-- C8: a non-empty IR comparison chain compiles to straight-line code — no
branch, return or unreachable instruction anywhere in what it appends — that
evaluates the left operand and then every link unconditionally: the emitted
comparison instructions compare exactly the adjacent (previous value, next
operand value) pairs, so each middle operand is compiled once and shared
between its two links, with the links' predicates in source order; the
per-link results are then combined by a left-fold of bitwise ANDs seeded with
the first link's result, whose final running value is the expression's value.
No link's code is conditional on an earlier link's result. -/
theorem C8_comparison_eager (left : ir.IntExpression)
    (chains : List (ir.IntComparisonOp × ir.IntExpression))
    (s : GenState) (v : Value) (s' : GenState)
    (hne : chains ≠ [])
    (h : compileComparison (.IntComparison left chains) s = .ok (v, s')) :
    ∃ Δ lv s1 vs parts ws,
      compileIntExpression left s = .ok (lv, s1) ∧
      Straight s s' Δ ∧
      (∀ i ∈ Δ, isBranchInstr i = false) ∧
      vs.length = chains.length ∧
      parts.length = chains.length ∧
      icmpArgs Δ = List.zip (lv :: vs) vs ∧
      icmpPreds Δ = chains.map (fun c => predOfIntComparison c.1) ∧
      icmpRefs Δ = parts ∧
      ∃ p0 prest, parts = p0 :: prest ∧
        bandArgs Δ = List.zip (p0 :: ws) prest ∧
        (p0 :: ws).getLast? = some v := by
  simp only [compileComparison, genm_bind_def] at h
  obtain ⟨lv, s1, h1, h2⟩ := bindG_eq_ok h
  obtain ⟨parts, s2, h3, h4⟩ := bindG_eq_ok h2
  obtain ⟨Δ2, vs, hst2, hvlen, hplen, hP2, hargs, hpreds, hrefs, hband2⟩ :=
    compileComparisonChains_spec chains lv s1 parts s2 h3
  obtain ⟨Δ1, hst1, hP1⟩ := compileIntExpression_straight left s lv s1 h1
  cases parts with
  | nil =>
      exact absurd (List.length_eq_zero.mp (by simpa using hplen.symm)) hne
  | cons p0 prest =>
      obtain ⟨Δ3, ws, hst3, hwlen, hP3, hband3, hlast3⟩ :=
        foldAnd_spec prest p0 s2 v s' h4
      obtain ⟨hn1a, hn1p, hn1r, hn1b⟩ := filterMaps_nil_of_int hP1
      obtain ⟨hn3a, hn3p, hn3r⟩ := filterMaps_nil_of_band hP3
      refine ⟨(Δ1 ++ Δ2) ++ Δ3, lv, s1, vs, p0 :: prest, ws, h1,
        (hst1.straight_trans hst2).straight_trans hst3, ?_, hvlen, hplen, ?_, ?_, ?_,
        p0, prest, rfl, ?_, hlast3⟩
      · intro i hi
        simp only [List.mem_append] at hi
        rcases hi with (hi | hi) | hi
        · exact not_branch_of_val i (Or.inl (hP1 i hi))
        · rcases hP2 i hi with hv | hc
          · exact not_branch_of_val i (Or.inl hv)
          · exact not_branch_of_val i (Or.inr (Or.inl hc))
        · exact not_branch_of_val i (Or.inr (Or.inr (hP3 i hi)))
      · rw [icmpArgs_append, icmpArgs_append, hn1a, hn3a, hargs]
        simp
      · rw [icmpPreds_append, icmpPreds_append, hn1p, hn3p, hpreds]
        simp
      · rw [icmpRefs_append, icmpRefs_append, hn1r, hn3r, hrefs]
        simp
      · rw [bandArgs_append, bandArgs_append, hn1b, hband2, hband3]
        simp

/-- Concrete run backing `C8_comparison_eager`: compiling the one-link chain
`1 == 2` from a fresh state emits exactly one comparison and no AND, and the
expression's value is that comparison's result. -/
theorem C8_comparison_eager_witness :
    ∃ Δ lv s1 vs parts ws,
      compileIntExpression (ir.IntExpression.Literal 1)
          (⟨[(0, [])], 0, 0, 1, [], [], []⟩ : GenState) = .ok (lv, s1) ∧
      Straight (⟨[(0, [])], 0, 0, 1, [], [], []⟩ : GenState)
        (⟨[(0, [.icmp 0 .EQ (.intConst 32 1) (.intConst 32 2)])],
          0, 1, 1, [], [], []⟩ : GenState) Δ ∧
      (∀ i ∈ Δ, isBranchInstr i = false) ∧
      vs.length = [((ir.IntComparisonOp.Equal), ir.IntExpression.Literal 2)].length ∧
      parts.length = [((ir.IntComparisonOp.Equal), ir.IntExpression.Literal 2)].length ∧
      icmpArgs Δ = List.zip (lv :: vs) vs ∧
      icmpPreds Δ = [((ir.IntComparisonOp.Equal), ir.IntExpression.Literal 2)].map
        (fun c => predOfIntComparison c.1) ∧
      icmpRefs Δ = parts ∧
      ∃ p0 prest, parts = p0 :: prest ∧
        bandArgs Δ = List.zip (p0 :: ws) prest ∧
        (p0 :: ws).getLast? = some (Value.ref 0) :=
  C8_comparison_eager (ir.IntExpression.Literal 1)
    [((ir.IntComparisonOp.Equal), ir.IntExpression.Literal 2)]
    ⟨[(0, [])], 0, 0, 1, [], [], []⟩ (Value.ref 0)
    ⟨[(0, [.icmp 0 .EQ (.intConst 32 1) (.intConst 32 2)])], 0, 1, 1, [], [], []⟩
    (List.cons_ne_nil _ _) rfl


/-! ## Block-table lemmas for the branching code paths -/

/-- Instruction list of a block id in a raw block table. -/
def blocksGet (bs : List (Nat × List Instr)) (b : Nat) : List Instr :=
  ((bs.find? (fun p => p.1 = b)).map (fun p => p.2)).getD []

theorem getBlock_eq_blocksGet (s : GenState) (b : Nat) :
    getBlock s b = blocksGet s.blocks b := rfl

/-- The block ids of a block table, in order. -/
def blockIds (bs : List (Nat × List Instr)) : List Nat := bs.map Prod.fst

theorem blockIds_append (bs1 bs2 : List (Nat × List Instr)) :
    blockIds (bs1 ++ bs2) = blockIds bs1 ++ blockIds bs2 := by
  simp [blockIds]

theorem blockIds_appendList (bs : List (Nat × List Instr)) (b : Nat) (Δ : List Instr) :
    blockIds (appendList bs b Δ) = blockIds bs := by
  unfold blockIds appendList
  rw [List.map_map]
  apply List.map_congr_left
  intro p _
  by_cases hp : p.1 = b <;> simp [hp]

theorem blockIds_appendToBlock (bs : List (Nat × List Instr)) (b : Nat) (i : Instr) :
    blockIds (appendToBlock bs b i) = blockIds bs := by
  rw [appendToBlock_as_appendList]
  exact blockIds_appendList bs b [i]

theorem find?_appendList (bs : List (Nat × List Instr)) (b : Nat) (Δ : List Instr) (c : Nat) :
    (appendList bs b Δ).find? (fun p => p.1 = c)
      = (bs.find? (fun p => p.1 = c)).map (fun p => if p.1 = b then (p.1, p.2 ++ Δ) else p) := by
  unfold appendList
  rw [List.find?_map]
  have hpred : ((fun p => decide (p.1 = c)) ∘ fun p : Nat × List Instr =>
      if p.1 = b then (p.1, p.2 ++ Δ) else p) = (fun p => decide (p.1 = c)) := by
    funext p
    by_cases hp : p.1 = b <;> simp [Function.comp, hp]
  rw [hpred]

theorem blocksGet_appendList_ne (bs : List (Nat × List Instr)) (b c : Nat) (Δ : List Instr)
    (h : c ≠ b) : blocksGet (appendList bs b Δ) c = blocksGet bs c := by
  unfold blocksGet
  rw [find?_appendList]
  cases hf : bs.find? (fun p => p.1 = c) with
  | none => rfl
  | some p =>
      have hp : p.1 = c := by simpa using List.find?_some hf
      have hif : (if p.1 = b then (p.1, p.2 ++ Δ) else p) = p := by
        apply if_neg
        rw [hp]
        exact h
      simp [hif]

theorem blocksGet_appendList_mem (bs : List (Nat × List Instr)) (b : Nat) (Δ : List Instr)
    (h : b ∈ blockIds bs) : blocksGet (appendList bs b Δ) b = blocksGet bs b ++ Δ := by
  unfold blocksGet
  rw [find?_appendList]
  cases hf : bs.find? (fun p => p.1 = b) with
  | none =>
      exfalso
      rw [List.find?_eq_none] at hf
      obtain ⟨p, hp, hfst⟩ := List.mem_map.mp h
      exact hf p hp (by simp [hfst])
  | some p =>
      have hp : p.1 = b := by simpa using List.find?_some hf
      have hif : (if p.1 = b then (p.1, p.2 ++ Δ) else p) = (p.1, p.2 ++ Δ) := if_pos hp
      simp [hif]

theorem blocksGet_appendToBlock_ne (bs : List (Nat × List Instr)) (b c : Nat) (i : Instr)
    (h : c ≠ b) : blocksGet (appendToBlock bs b i) c = blocksGet bs c := by
  rw [appendToBlock_as_appendList]
  exact blocksGet_appendList_ne bs b c [i] h

theorem blocksGet_appendToBlock_mem (bs : List (Nat × List Instr)) (b : Nat) (i : Instr)
    (h : b ∈ blockIds bs) : blocksGet (appendToBlock bs b i) b = blocksGet bs b ++ [i] := by
  rw [appendToBlock_as_appendList]
  exact blocksGet_appendList_mem bs b [i] h

theorem blocksGet_append_left (bs1 bs2 : List (Nat × List Instr)) (c : Nat)
    (h : c ∉ blockIds bs2) : blocksGet (bs1 ++ bs2) c = blocksGet bs1 c := by
  induction bs1 with
  | nil =>
      have hn : bs2.find? (fun p => p.1 = c) = none := by
        rw [List.find?_eq_none]
        intro p hp
        simp only [decide_eq_true_eq]
        intro hc
        exact h (List.mem_map.mpr ⟨p, hp, hc⟩)
      simp only [List.nil_append]
      unfold blocksGet
      rw [hn]
      rfl
  | cons p t ih =>
      rw [List.cons_append]
      by_cases hp : p.1 = c
      · unfold blocksGet
        rw [List.find?_cons_of_pos _ (by simp [hp]), List.find?_cons_of_pos _ (by simp [hp])]
      · unfold blocksGet at ih ⊢
        rw [List.find?_cons_of_neg _ (by simp [hp]), List.find?_cons_of_neg _ (by simp [hp])]
        exact ih

theorem blocksGet_append_right (bs1 bs2 : List (Nat × List Instr)) (c : Nat)
    (h : c ∉ blockIds bs1) : blocksGet (bs1 ++ bs2) c = blocksGet bs2 c := by
  induction bs1 with
  | nil => rfl
  | cons p t ih =>
      have hp : ¬ (p.1 = c) := by
        intro hc
        exact h (List.mem_map.mpr ⟨p, by simp, hc⟩)
      rw [List.cons_append]
      unfold blocksGet at ih ⊢
      rw [List.find?_cons_of_neg _ (by simp [hp])]
      exact ih (fun hmem => h (by simp [blockIds] at hmem ⊢; exact Or.inr hmem))

/-! ## Builder-state evolution invariants -/

/-- Structural well-formedness of the builder state maintained between the
branching compilation steps: every block id is below the fresh-block counter
and the insertion position is an existing block. -/
def WFGen (s : GenState) : Prop :=
  (∀ b ∈ blockIds s.blocks, b < s.nextBlock) ∧ s.current ∈ blockIds s.blocks

/-- `s'` extends `s` as compilation does: the counters only grow, the
local-variable table and declared functions are untouched, the insertion
position is the original one or a newly created block, every pre-existing
block other than the original insertion block keeps its instructions, no old
block is dropped, and every block is an old one or newly created. -/
def Extends (s s' : GenState) : Prop :=
  s.nextVal ≤ s'.nextVal ∧
  s.nextBlock ≤ s'.nextBlock ∧
  s'.local_vars = s.local_vars ∧
  s'.declaredFns = s.declaredFns ∧
  s'.fns = s.fns ∧
  (s'.current = s.current ∨ s.nextBlock ≤ s'.current) ∧
  (∀ b, b < s.nextBlock → b ≠ s.current → getBlock s' b = getBlock s b) ∧
  (∀ b, b ∈ blockIds s.blocks → b ∈ blockIds s'.blocks) ∧
  (∀ b, b ∈ blockIds s'.blocks → b ∈ blockIds s.blocks ∨ s.nextBlock ≤ b)

theorem Extends.ext_refl (s : GenState) : Extends s s :=
  ⟨le_refl _, le_refl _, rfl, rfl, rfl, Or.inl rfl,
   fun _ _ _ => rfl, fun _ hb => hb, fun _ hb => Or.inl hb⟩

theorem Extends.ext_trans {s s1 s2 : GenState} (h1 : Extends s s1) (h2 : Extends s1 s2) :
    Extends s s2 := by
  obtain ⟨hv1, hb1, hl1, hd1, hf1, hc1, hu1, hi1, hj1⟩ := h1
  obtain ⟨hv2, hb2, hl2, hd2, hf2, hc2, hu2, hi2, hj2⟩ := h2
  refine ⟨le_trans hv1 hv2, le_trans hb1 hb2, hl2.trans hl1, hd2.trans hd1, hf2.trans hf1,
    ?_, ?_, fun b hb => hi2 b (hi1 b hb), ?_⟩
  · rcases hc2 with hc2 | hc2
    · rw [hc2]
      exact hc1
    · exact Or.inr (le_trans hb1 hc2)
  · intro b hlt hne
    have hne1 : b ≠ s1.current := by
      rcases hc1 with hc1 | hc1
      · rw [hc1]
        exact hne
      · omega
    rw [hu2 b (by omega) hne1]
    exact hu1 b hlt hne
  · intro b hb
    rcases hj2 b hb with hbm | hbm
    · exact hj1 b hbm
    · exact Or.inr (le_trans hb1 hbm)

/-- A straight-line segment extends the state and keeps it well-formed. -/
theorem Straight.extends {s s' : GenState} {Δ : List Instr} (h : Straight s s' Δ) :
    Extends s s' ∧ blockIds s'.blocks = blockIds s.blocks ∧
      s'.current = s.current ∧ s'.nextBlock = s.nextBlock ∧ (WFGen s → WFGen s') := by
  obtain ⟨nv, hnv, rfl⟩ := h
  have hids : blockIds (appendList s.blocks s.current Δ) = blockIds s.blocks :=
    blockIds_appendList s.blocks s.current Δ
  refine ⟨⟨hnv, le_refl _, rfl, rfl, rfl, Or.inl rfl, ?_, ?_, ?_⟩, hids, rfl, rfl, ?_⟩
  · intro b _ hb
    rw [getBlock_eq_blocksGet, getBlock_eq_blocksGet]
    exact blocksGet_appendList_ne s.blocks s.current b Δ hb
  · intro b hb
    dsimp only
    rw [hids]
    exact hb
  · intro b hb
    dsimp only at hb
    rw [hids] at hb
    exact Or.inl hb
  · intro hwf
    refine ⟨?_, ?_⟩
    · intro b hb
      dsimp only at hb ⊢
      rw [hids] at hb
      exact hwf.1 b hb
    · dsimp only
      rw [hids]
      exact hwf.2

/-! ## One-step equations for the builder primitives -/

theorem modifyG_eq_ok {f : GenState → GenState} {s s' : GenState} {u : Unit}
    (h : modifyG f s = .ok (u, s')) : s' = f s := by
  have he : modifyG f s = .ok ((), f s) := rfl
  rw [he] at h
  cases h
  rfl

theorem emitInstr_eq_ok {i : Instr} {s s' : GenState} {u : Unit}
    (h : emitInstr i s = .ok (u, s')) :
    s' = { s with blocks := appendToBlock s.blocks s.current i } :=
  modifyG_eq_ok h

theorem positionAtEnd_eq_ok {b : Nat} {s s' : GenState} {u : Unit}
    (h : positionAtEnd b s = .ok (u, s')) : s' = { s with current := b } :=
  modifyG_eq_ok h

theorem newBlock_eq_ok {s s' : GenState} {b : Nat} (h : newBlock s = .ok (b, s')) :
    b = s.nextBlock ∧
    s' = { s with blocks := s.blocks ++ [(s.nextBlock, [])], nextBlock := s.nextBlock + 1 } := by
  have he : newBlock s = .ok (s.nextBlock,
      { s with blocks := s.blocks ++ [(s.nextBlock, [])], nextBlock := s.nextBlock + 1 }) := rfl
  rw [he] at h
  cases h
  exact ⟨rfl, rfl⟩

theorem getFunction_eq_ok {name : String} {s s' : GenState} {u : Unit}
    (h : getFunction name s = .ok (u, s')) : s' = s ∧ name ∈ s.declaredFns := by
  unfold getFunction at h
  split at h
  · cases h
    exact ⟨rfl, by assumption⟩
  · cases h

theorem emit_eq_ok {mk : Nat → Instr} {s s' : GenState} {v : Value}
    (h : emit mk s = .ok (v, s')) :
    v = .ref s.nextVal ∧
    s' = { s with blocks := appendToBlock s.blocks s.current (mk s.nextVal),
                  nextVal := s.nextVal + 1 } := by
  have he : emit mk s = .ok (.ref s.nextVal,
      { s with blocks := appendToBlock s.blocks s.current (mk s.nextVal),
               nextVal := s.nextVal + 1 }) := rfl
  rw [he] at h
  cases h
  exact ⟨rfl, rfl⟩

/-- `compile_comparison` only appends to the current block. -/
theorem compileComparison_straight {ce : ir.ComparisonExpression} {s : GenState} {v : Value}
    {s' : GenState} (h : compileComparison ce s = .ok (v, s')) : ∃ Δ, Straight s s' Δ := by
  obtain ⟨left, chains⟩ := ce
  simp only [compileComparison, genm_bind_def] at h
  obtain ⟨lv, s1, h1, h2⟩ := bindG_eq_ok h
  obtain ⟨parts, s2, h3, h4⟩ := bindG_eq_ok h2
  obtain ⟨Δ1, hst1, _⟩ := compileIntExpression_straight left s lv s1 h1
  obtain ⟨Δ2, vs, hst2, _, _, _, _, _, _, _⟩ := compileComparisonChains_spec chains lv s1 parts s2 h3
  cases parts with
  | nil => cases h4
  | cons p0 prest =>
      obtain ⟨Δ3, ws, hst3, _, _, _, _⟩ := foldAnd_spec prest p0 s2 v s' h4
      exact ⟨_, (hst1.straight_trans hst2).straight_trans hst3⟩


theorem blocksGet_cons_self (b : Nat) (l : List Instr) (rest : List (Nat × List Instr)) :
    blocksGet ((b, l) :: rest) b = l := by
  unfold blocksGet
  rw [List.find?_cons_of_pos _ (by simp)]
  rfl

/-- Everything the `Operator` arm of `compile_bool_expression` does after the
left operand is compiled, for either branch polarity `mkBr` and short-circuit
constant `sv`: it creates the right, short and continue blocks, looks up the
reserved identifier's slot, appends the conditional branch to the left
operand's block, compiles the right operand positioned in the right block,
stores its value there and jumps to the continue block, fills the short block
with exactly a store of the constant and the jump — nothing of the right
operand — and finishes in the continue block, whose single load of the slot
is the expression's value. -/
theorem operator_tail_spec
    (right : ir.BooleanExpression)
    (ihr : ∀ (s : GenState) (v : Value) (s' : GenState),
      compileBoolExpression right s = .ok (v, s') → WFGen s → Extends s s' ∧ WFGen s')
    (id : ir.VariableIdentifier) (mkBr : Nat → Nat → Instr) (sv : Value) :
    ∀ (s1 : GenState) (v : Value) (s' : GenState),
      (bindG newBlock (fun rightBlock =>
        bindG newBlock (fun shortBlock =>
          bindG newBlock (fun continueBlock =>
            bindG (getLocalVar id) (fun pointer =>
              bindG (emitInstr (mkBr rightBlock shortBlock)) (fun _ =>
                bindG (positionAtEnd rightBlock) (fun _ =>
                  bindG (compileBoolExpression right) (fun r =>
                    bindG (emitInstr (.store pointer r)) (fun _ =>
                      bindG (emitInstr (.br continueBlock)) (fun _ =>
                        bindG (positionAtEnd shortBlock) (fun _ =>
                          bindG (emitInstr (.store pointer sv)) (fun _ =>
                            bindG (emitInstr (.br continueBlock)) (fun _ =>
                              bindG (positionAtEnd continueBlock) (fun _ =>
                                emit (fun n => .load n pointer))))))))))))))) s1
        = .ok (v, s') →
      WFGen s1 →
      ∃ ptr rv s3,
        (s1.local_vars.find? (fun p => p.1 = id.id)).map (fun p => p.2) = some ptr ∧
        compileBoolExpression right
          (⟨appendToBlock (s1.blocks ++ [(s1.nextBlock, [])] ++ [(s1.nextBlock + 1, [])] ++
                [(s1.nextBlock + 1 + 1, [])])
              s1.current (mkBr s1.nextBlock (s1.nextBlock + 1)),
            s1.nextBlock, s1.nextVal, s1.nextBlock + 1 + 1 + 1,
            s1.local_vars, s1.declaredFns, s1.fns⟩ : GenState) = .ok (rv, s3) ∧
        getBlock s' s1.current
          = getBlock s1 s1.current ++ [mkBr s1.nextBlock (s1.nextBlock + 1)] ∧
        getBlock s' s3.current
          = getBlock s3 s3.current ++ [.store ptr rv, .br (s1.nextBlock + 1 + 1)] ∧
        getBlock s' (s1.nextBlock + 1) = [.store ptr sv, .br (s1.nextBlock + 1 + 1)] ∧
        s'.current = s1.nextBlock + 1 + 1 ∧
        getBlock s' (s1.nextBlock + 1 + 1) = [.load s3.nextVal ptr] ∧
        v = .ref s3.nextVal ∧
        Extends s1 s' ∧ WFGen s' := by
  intro s1 v s' h hwf1
  have hC : s1.current < s1.nextBlock := hwf1.1 _ hwf1.2
  obtain ⟨rb, sA, hA, h⟩ := bindG_eq_ok h
  obtain ⟨hrb, hsA⟩ := newBlock_eq_ok hA
  subst hrb
  subst hsA
  obtain ⟨sb, sB, hB, h⟩ := bindG_eq_ok h
  obtain ⟨hsb, hsB⟩ := newBlock_eq_ok hB
  dsimp only at hsb hsB
  subst hsb
  subst hsB
  obtain ⟨cb, sC, hCeq, h⟩ := bindG_eq_ok h
  obtain ⟨hcb, hsC⟩ := newBlock_eq_ok hCeq
  dsimp only at hcb hsC
  subst hcb
  subst hsC
  obtain ⟨ptr, sD, hD, h⟩ := bindG_eq_ok h
  obtain ⟨hsD, hptr⟩ := getLocalVar_ok hD
  subst hsD
  dsimp only at hptr
  obtain ⟨u1, sE, hE, h⟩ := bindG_eq_ok h
  have hsE := emitInstr_eq_ok hE
  dsimp only at hsE
  subst hsE
  obtain ⟨u2, sF, hF, h⟩ := bindG_eq_ok h
  have hsF := positionAtEnd_eq_ok hF
  dsimp only at hsF
  subst hsF
  obtain ⟨rv, s3, h7, h⟩ := bindG_eq_ok h
  have hwfF : WFGen (⟨appendToBlock (s1.blocks ++ [(s1.nextBlock, [])] ++
          [(s1.nextBlock + 1, [])] ++ [(s1.nextBlock + 1 + 1, [])])
        s1.current (mkBr s1.nextBlock (s1.nextBlock + 1)),
      s1.nextBlock, s1.nextVal, s1.nextBlock + 1 + 1 + 1,
      s1.local_vars, s1.declaredFns, s1.fns⟩ : GenState) := by
    constructor
    · intro b hb
      dsimp only at hb ⊢
      rw [blockIds_appendToBlock, blockIds_append, blockIds_append, blockIds_append] at hb
      simp only [List.mem_append, blockIds, List.map_cons, List.map_nil,
        List.mem_singleton] at hb
      rcases hb with ((hb | hb) | hb) | hb
      · have := hwf1.1 b (by simpa [blockIds] using hb)
        omega
      · omega
      · omega
      · omega
    · dsimp only
      rw [blockIds_appendToBlock, blockIds_append, blockIds_append, blockIds_append]
      exact List.mem_append_left _
        (List.mem_append_left _ (List.mem_append_right _ (by simp [blockIds])))
  obtain ⟨hextR, hwfR⟩ := ihr _ rv s3 h7 hwfF
  obtain ⟨hv3, hb3, hl3, hd3, hf3, hc3, hu3, hi3, hj3⟩ := hextR
  have hv3' : s1.nextVal ≤ s3.nextVal := hv3
  have hb3' : s1.nextBlock + 1 + 1 + 1 ≤ s3.nextBlock := hb3
  have hl3' : s3.local_vars = s1.local_vars := hl3
  have hd3' : s3.declaredFns = s1.declaredFns := hd3
  have hf3' : s3.fns = s1.fns := hf3
  have hc3' : s3.current = s1.nextBlock ∨ s1.nextBlock + 1 + 1 + 1 ≤ s3.current := hc3
  have hu3' : ∀ b, b < s1.nextBlock + 1 + 1 + 1 → b ≠ s1.nextBlock →
      blocksGet s3.blocks b
        = blocksGet (appendToBlock (s1.blocks ++ [(s1.nextBlock, [])] ++
            [(s1.nextBlock + 1, [])] ++ [(s1.nextBlock + 1 + 1, [])])
          s1.current (mkBr s1.nextBlock (s1.nextBlock + 1))) b := hu3
  have hi3' : ∀ b, b ∈ blockIds (appendToBlock (s1.blocks ++ [(s1.nextBlock, [])] ++
        [(s1.nextBlock + 1, [])] ++ [(s1.nextBlock + 1 + 1, [])])
        s1.current (mkBr s1.nextBlock (s1.nextBlock + 1))) → b ∈ blockIds s3.blocks := hi3
  have hj3' : ∀ b, b ∈ blockIds s3.blocks →
      b ∈ blockIds (appendToBlock (s1.blocks ++ [(s1.nextBlock, [])] ++
        [(s1.nextBlock + 1, [])] ++ [(s1.nextBlock + 1 + 1, [])])
        s1.current (mkBr s1.nextBlock (s1.nextBlock + 1))) ∨ s1.nextBlock + 1 + 1 + 1 ≤ b :=
    hj3
  have hsc_ne_C : s3.current ≠ s1.current := by rcases hc3' with hc | hc <;> omega
  have hsc_ne_sb : s3.current ≠ s1.nextBlock + 1 := by rcases hc3' with hc | hc <;> omega
  have hsc_ne_cb : s3.current ≠ s1.nextBlock + 1 + 1 := by rcases hc3' with hc | hc <;> omega
  have hsc_mem : s3.current ∈ blockIds s3.blocks := hwfR.2
  obtain ⟨u3, sG, hG, h⟩ := bindG_eq_ok h
  have hsG := emitInstr_eq_ok hG
  subst hsG
  obtain ⟨u4, sH, hH, h⟩ := bindG_eq_ok h
  have hsH := emitInstr_eq_ok hH
  dsimp only at hsH
  subst hsH
  obtain ⟨u5, sI, hI, h⟩ := bindG_eq_ok h
  have hsI := positionAtEnd_eq_ok hI
  dsimp only at hsI
  subst hsI
  obtain ⟨u6, sJ, hJ, h⟩ := bindG_eq_ok h
  have hsJ := emitInstr_eq_ok hJ
  dsimp only at hsJ
  subst hsJ
  obtain ⟨u7, sK, hK, h⟩ := bindG_eq_ok h
  have hsK := emitInstr_eq_ok hK
  dsimp only at hsK
  subst hsK
  obtain ⟨u8, sL, hL, h⟩ := bindG_eq_ok h
  have hsL := positionAtEnd_eq_ok hL
  dsimp only at hsL
  subst hsL
  obtain ⟨hv, hs'⟩ := emit_eq_ok h
  dsimp only at hv hs'
  have hIDS : blockIds (s1.blocks ++ [(s1.nextBlock, [])] ++ [(s1.nextBlock + 1, [])] ++
      [(s1.nextBlock + 1 + 1, [])])
      = blockIds s1.blocks ++ [s1.nextBlock] ++ [s1.nextBlock + 1] ++ [s1.nextBlock + 1 + 1] := by
    rw [blockIds_append, blockIds_append, blockIds_append]
    rfl
  have hmemBIG : ∀ b, b ∈ blockIds s1.blocks →
      b ∈ blockIds (appendToBlock (s1.blocks ++ [(s1.nextBlock, [])] ++
        [(s1.nextBlock + 1, [])] ++ [(s1.nextBlock + 1 + 1, [])])
        s1.current (mkBr s1.nextBlock (s1.nextBlock + 1))) := by
    intro b hb
    rw [blockIds_appendToBlock, hIDS]
    exact List.mem_append_left _ (List.mem_append_left _ (List.mem_append_left _ hb))
  have hsbmem3 : s1.nextBlock + 1 ∈ blockIds s3.blocks := by
    apply hi3'
    rw [blockIds_appendToBlock, hIDS]
    exact List.mem_append_left _ (List.mem_append_right _ (by simp))
  have hcbmem3 : s1.nextBlock + 1 + 1 ∈ blockIds s3.blocks := by
    apply hi3'
    rw [blockIds_appendToBlock, hIDS]
    exact List.mem_append_right _ (by simp)
  have hnm : s1.nextBlock + 1 ∉ blockIds (s1.blocks ++ [(s1.nextBlock, [])]) := by
    rw [blockIds_append]
    simp only [List.mem_append]
    rintro (hmem | hmem)
    · have := hwf1.1 _ hmem
      omega
    · simp only [blockIds, List.map_cons, List.map_nil, List.mem_singleton] at hmem
      omega
  have hnm2 : s1.nextBlock + 1 + 1 ∉
      blockIds (s1.blocks ++ [(s1.nextBlock, [])] ++ [(s1.nextBlock + 1, [])]) := by
    rw [blockIds_append, blockIds_append]
    simp only [List.mem_append]
    rintro ((hmem | hmem) | hmem)
    · have := hwf1.1 _ hmem
      omega
    · simp only [blockIds, List.map_cons, List.map_nil, List.mem_singleton] at hmem
      omega
    · simp only [blockIds, List.map_cons, List.map_nil, List.mem_singleton] at hmem
      omega
  refine ⟨ptr, rv, s3, hptr, h7, ?_, ?_, ?_, ?_, ?_, hv, ?_, ?_⟩
  · rw [hs', getBlock_eq_blocksGet, getBlock_eq_blocksGet]
    dsimp only
    rw [blocksGet_appendToBlock_ne _ _ _ _ (by omega : s1.current ≠ s1.nextBlock + 1 + 1),
      blocksGet_appendToBlock_ne _ _ _ _ (by omega : s1.current ≠ s1.nextBlock + 1),
      blocksGet_appendToBlock_ne _ _ _ _ (by omega : s1.current ≠ s1.nextBlock + 1),
      blocksGet_appendToBlock_ne _ _ _ _ hsc_ne_C.symm,
      blocksGet_appendToBlock_ne _ _ _ _ hsc_ne_C.symm,
      hu3' s1.current (by omega) (by omega),
      blocksGet_appendToBlock_mem _ _ _
        (by rw [hIDS]
            exact List.mem_append_left _
              (List.mem_append_left _ (List.mem_append_left _ hwf1.2))),
      blocksGet_append_left _ _ _ (by simp only [blockIds, List.map_cons, List.map_nil, List.mem_singleton]; omega),
      blocksGet_append_left _ _ _ (by simp only [blockIds, List.map_cons, List.map_nil, List.mem_singleton]; omega),
      blocksGet_append_left _ _ _ (by simp only [blockIds, List.map_cons, List.map_nil, List.mem_singleton]; omega)]
  · rw [hs', getBlock_eq_blocksGet, getBlock_eq_blocksGet]
    dsimp only
    rw [blocksGet_appendToBlock_ne _ _ _ _ hsc_ne_cb,
      blocksGet_appendToBlock_ne _ _ _ _ hsc_ne_sb,
      blocksGet_appendToBlock_ne _ _ _ _ hsc_ne_sb,
      blocksGet_appendToBlock_mem _ _ _ (by rw [blockIds_appendToBlock]; exact hsc_mem),
      blocksGet_appendToBlock_mem _ _ _ hsc_mem,
      List.append_assoc]
    rfl
  · rw [hs', getBlock_eq_blocksGet]
    dsimp only
    rw [blocksGet_appendToBlock_ne _ _ _ _
        (by omega : s1.nextBlock + 1 ≠ s1.nextBlock + 1 + 1),
      blocksGet_appendToBlock_mem _ _ _
        (by rw [blockIds_appendToBlock, blockIds_appendToBlock, blockIds_appendToBlock]
            exact hsbmem3),
      blocksGet_appendToBlock_mem _ _ _
        (by rw [blockIds_appendToBlock, blockIds_appendToBlock]
            exact hsbmem3),
      blocksGet_appendToBlock_ne _ _ _ _ hsc_ne_sb.symm,
      blocksGet_appendToBlock_ne _ _ _ _ hsc_ne_sb.symm,
      hu3' (s1.nextBlock + 1) (by omega) (by omega),
      blocksGet_appendToBlock_ne _ _ _ _ (by omega : s1.nextBlock + 1 ≠ s1.current),
      blocksGet_append_left _ _ _ (by simp only [blockIds, List.map_cons, List.map_nil, List.mem_singleton]; omega),
      blocksGet_append_right _ _ _ hnm,
      blocksGet_cons_self]
    rfl
  · rw [hs']
  · rw [hs', getBlock_eq_blocksGet]
    dsimp only
    rw [blocksGet_appendToBlock_mem _ _ _
        (by rw [blockIds_appendToBlock, blockIds_appendToBlock, blockIds_appendToBlock,
              blockIds_appendToBlock]
            exact hcbmem3),
      blocksGet_appendToBlock_ne _ _ _ _
        (by omega : s1.nextBlock + 1 + 1 ≠ s1.nextBlock + 1),
      blocksGet_appendToBlock_ne _ _ _ _
        (by omega : s1.nextBlock + 1 + 1 ≠ s1.nextBlock + 1),
      blocksGet_appendToBlock_ne _ _ _ _ hsc_ne_cb.symm,
      blocksGet_appendToBlock_ne _ _ _ _ hsc_ne_cb.symm,
      hu3' (s1.nextBlock + 1 + 1) (by omega) (by omega),
      blocksGet_appendToBlock_ne _ _ _ _ (by omega : s1.nextBlock + 1 + 1 ≠ s1.current),
      blocksGet_append_right _ _ _ hnm2,
      blocksGet_cons_self]
    rfl
  · rw [hs']
    refine ⟨?_, ?_, ?_, ?_, ?_, ?_, ?_, ?_, ?_⟩
    · show s1.nextVal ≤ s3.nextVal + 1
      omega
    · show s1.nextBlock ≤ s3.nextBlock
      omega
    · exact hl3'
    · exact hd3'
    · exact hf3'
    · exact Or.inr (by show s1.nextBlock ≤ s1.nextBlock + 1 + 1; omega)
    · intro b hb hbne
      rw [getBlock_eq_blocksGet, getBlock_eq_blocksGet]
      dsimp only
      have hb3c : b ≠ s3.current := by rcases hc3' with hc | hc <;> omega
      rw [blocksGet_appendToBlock_ne _ _ _ _ (by omega : b ≠ s1.nextBlock + 1 + 1),
        blocksGet_appendToBlock_ne _ _ _ _ (by omega : b ≠ s1.nextBlock + 1),
        blocksGet_appendToBlock_ne _ _ _ _ (by omega : b ≠ s1.nextBlock + 1),
        blocksGet_appendToBlock_ne _ _ _ _ hb3c,
        blocksGet_appendToBlock_ne _ _ _ _ hb3c,
        hu3' b (by omega) (by omega),
        blocksGet_appendToBlock_ne _ _ _ _ hbne,
        blocksGet_append_left _ _ _ (by simp only [blockIds, List.map_cons, List.map_nil, List.mem_singleton]; omega),
        blocksGet_append_left _ _ _ (by simp only [blockIds, List.map_cons, List.map_nil, List.mem_singleton]; omega),
        blocksGet_append_left _ _ _ (by simp only [blockIds, List.map_cons, List.map_nil, List.mem_singleton]; omega)]
    · intro b hb
      dsimp only
      rw [blockIds_appendToBlock, blockIds_appendToBlock, blockIds_appendToBlock,
        blockIds_appendToBlock, blockIds_appendToBlock]
      exact hi3' b (hmemBIG b hb)
    · intro b hb
      dsimp only at hb
      rw [blockIds_appendToBlock, blockIds_appendToBlock, blockIds_appendToBlock,
        blockIds_appendToBlock, blockIds_appendToBlock] at hb
      rcases hj3' b hb with hmem | hmem
      · rw [blockIds_appendToBlock, hIDS] at hmem
        simp only [List.mem_append] at hmem
        rcases hmem with ((hmem | hmem) | hmem) | hmem
        · exact Or.inl hmem
        · simp at hmem
          exact Or.inr (by omega)
        · simp at hmem
          exact Or.inr (by omega)
        · simp at hmem
          exact Or.inr (by omega)
      · exact Or.inr (by omega)
  · rw [hs']
    constructor
    · intro b hb
      dsimp only at hb ⊢
      rw [blockIds_appendToBlock, blockIds_appendToBlock, blockIds_appendToBlock,
        blockIds_appendToBlock, blockIds_appendToBlock] at hb
      exact hwfR.1 b hb
    · dsimp only
      rw [blockIds_appendToBlock, blockIds_appendToBlock, blockIds_appendToBlock,
        blockIds_appendToBlock, blockIds_appendToBlock]
      exact hcbmem3


theorem emit_extends {mk : Nat → Instr} {s s' : GenState} {v : Value}
    (h : emit mk s = .ok (v, s')) : Extends s s' ∧ (WFGen s → WFGen s') := by
  obtain ⟨rfl, rfl⟩ := emit_eq_ok h
  have hstr : Straight s
      { s with blocks := appendToBlock s.blocks s.current (mk s.nextVal),
               nextVal := s.nextVal + 1 } [mk s.nextVal] :=
    ⟨s.nextVal + 1, Nat.le_succ _, by rw [appendToBlock_as_appendList]⟩
  obtain ⟨hext, _, _, _, hwfp⟩ := hstr.extends
  exact ⟨hext, hwfp⟩

/-- `compile_bool_expression` extends the builder state (counters grow, old
blocks other than the insertion block are untouched, the variable tables are
preserved) and keeps it well-formed. -/
theorem compileBoolExpression_ext (e : ir.BooleanExpression) :
    ∀ (s : GenState) (v : Value) (s' : GenState),
      compileBoolExpression e s = .ok (v, s') → WFGen s → Extends s s' ∧ WFGen s' := by
  induction e with
  | Literal b =>
      intro s v s' h hwf
      simp only [compileBoolExpression, genm_pure_def] at h
      obtain ⟨rfl, rfl⟩ := pureG_eq_ok h
      exact ⟨Extends.ext_refl _, hwf⟩
  | Not e1 ih =>
      intro s v s' h hwf
      simp only [compileBoolExpression, genm_bind_def] at h
      obtain ⟨v1, s1, h1, h2⟩ := bindG_eq_ok h
      obtain ⟨hext1, hwf1⟩ := ih s v1 s1 h1 hwf
      obtain ⟨hext2, hwfp⟩ := emit_extends h2
      exact ⟨hext1.ext_trans hext2, hwfp hwf1⟩
  | Comparison ce =>
      intro s v s' h hwf
      simp only [compileBoolExpression] at h
      obtain ⟨Δ, hstr⟩ := compileComparison_straight h
      obtain ⟨hext, _, _, _, hwfp⟩ := hstr.extends
      exact ⟨hext, hwfp hwf⟩
  | Operator rid left op right ihl ihr =>
      intro s v s' h hwf
      simp only [compileBoolExpression, genm_bind_def] at h
      obtain ⟨lv, s1, h1, h2⟩ := bindG_eq_ok h
      obtain ⟨hext1, hwf1⟩ := ihl s lv s1 h1 hwf
      cases op with
      | And =>
          obtain ⟨ptr, rv, s3, _, _, _, _, _, _, _, _, hext2, hwf2⟩ :=
            operator_tail_spec right ihr rid (fun a b => Instr.condBr lv a b)
              (Value.intConst 1 0) s1 v s' h2 hwf1
          exact ⟨hext1.ext_trans hext2, hwf2⟩
      | Or =>
          obtain ⟨ptr, rv, s3, _, _, _, _, _, _, _, _, hext2, hwf2⟩ :=
            operator_tail_spec right ihr rid (fun a b => Instr.condBr lv b a)
              (Value.intConst 1 1) s1 v s' h2 hwf1
          exact ⟨hext1.ext_trans hext2, hwf2⟩
  | Var vid =>
      intro s v s' h hwf
      simp only [compileBoolExpression, genm_bind_def] at h
      obtain ⟨ptr, s1, h1, h2⟩ := bindG_eq_ok h
      obtain ⟨rfl, -⟩ := getLocalVar_ok h1
      obtain ⟨hext, hwfp⟩ := emit_extends h2
      exact ⟨hext, hwfp hwf⟩

theorem compileConstPrintf_eq_ok {msg : String} {s s' : GenState} {u : Unit}
    (h : compileConstPrintf msg s = .ok (u, s')) :
    "printf" ∈ s.declaredFns ∧
    s' = { s with
           blocks :=
             appendToBlock s.blocks s.current (.callPrintf s.nextVal (.globalStr msg) []),
           nextVal := s.nextVal + 1 } := by
  simp only [compileConstPrintf, genm_bind_def, genm_pure_def] at h
  obtain ⟨u1, s1, h1, h2⟩ := bindG_eq_ok h
  obtain ⟨rfl, hmem⟩ := getFunction_eq_ok h1
  obtain ⟨v2, s2, h3, h4⟩ := bindG_eq_ok h2
  obtain ⟨rfl, rfl⟩ := emit_eq_ok h3
  obtain ⟨rfl, rfl⟩ := pureG_eq_ok h4
  exact ⟨hmem, rfl⟩


/-- The diagnostic text `compile_assert` prints: `format!("Assert failed: {}\n", message)`
when a literal message was given, else the generic `"Assert failed\n"`. -/
def assertDiag (message : Option String) : String :=
  match message with
  | some msg => "Assert failed: " ++ msg ++ "\n"
  | none => "Assert failed\n"

/-- C9: for every assert statement, the generated code evaluates the Boolean
operand and appends to its block a conditional branch whose true target is the
continuation block and whose false target is the failure block; the failure
block consists of exactly a printf of the diagnostic (`"Assert failed: "` plus
the literal message when one was given, else the generic `"Assert failed\n"`),
the call to the trapping abort primitive, and an unreachable terminator as its
final instruction; compilation resumes in the continuation block, which is
left empty by the assert itself (the true path has no side effect). -/
theorem C9_assert (expression : ir.BooleanExpression) (message : Option String)
    (s s' : GenState)
    (hwf : WFGen s)
    (h : compileAssert expression message s = .ok ((), s')) :
    ∃ condV s1,
      compileBoolExpression expression s = .ok (condV, s1) ∧
      getBlock s' s1.current
        = getBlock s1 s1.current ++ [.condBr condV (s1.nextBlock + 1) s1.nextBlock] ∧
      getBlock s' s1.nextBlock
        = [.callPrintf s1.nextVal (.globalStr (assertDiag message)) [],
           .callAbort (s1.nextVal + 1),
           .unreachableTerm] ∧
      (getBlock s' s1.nextBlock).getLast? = some .unreachableTerm ∧
      s'.current = s1.nextBlock + 1 ∧
      getBlock s' (s1.nextBlock + 1) = [] := by
  simp only [compileAssert, genm_bind_def] at h
  obtain ⟨condV, s1, h1, h⟩ := bindG_eq_ok h
  obtain ⟨hext1, hwf1⟩ := compileBoolExpression_ext expression s condV s1 h1 hwf
  have hC1 : s1.current < s1.nextBlock := hwf1.1 _ hwf1.2
  obtain ⟨fb, sA, hA, h⟩ := bindG_eq_ok h
  obtain ⟨hfb, hsA⟩ := newBlock_eq_ok hA
  subst hfb
  subst hsA
  obtain ⟨cb, sB, hB, h⟩ := bindG_eq_ok h
  obtain ⟨hcb, hsB⟩ := newBlock_eq_ok hB
  dsimp only at hcb hsB
  subst hcb
  subst hsB
  obtain ⟨u1, sC2, hCe, h⟩ := bindG_eq_ok h
  have hsC := emitInstr_eq_ok hCe
  dsimp only at hsC
  subst hsC
  obtain ⟨u2, sD, hD, h⟩ := bindG_eq_ok h
  have hsD := positionAtEnd_eq_ok hD
  dsimp only at hsD
  subst hsD
  obtain ⟨u3, sE, hEq, h⟩ := bindG_eq_ok h
  have hE2 : "printf" ∈ s1.declaredFns ∧
      sE = (⟨appendToBlock
              (appendToBlock (s1.blocks ++ [(s1.nextBlock, [])] ++ [(s1.nextBlock + 1, [])])
                s1.current (.condBr condV (s1.nextBlock + 1) s1.nextBlock))
              s1.nextBlock
              (.callPrintf s1.nextVal (.globalStr (assertDiag message)) []),
            s1.nextBlock, s1.nextVal + 1, s1.nextBlock + 1 + 1,
            s1.local_vars, s1.declaredFns, s1.fns⟩ : GenState) := by
    cases message
    · exact compileConstPrintf_eq_ok hEq
    · exact compileConstPrintf_eq_ok hEq
  obtain ⟨hpf, hsE⟩ := hE2
  subst hsE
  obtain ⟨u4, sF, hF, h⟩ := bindG_eq_ok h
  obtain ⟨hsF, hab⟩ := getFunction_eq_ok hF
  subst hsF
  obtain ⟨av, sG, hG, h⟩ := bindG_eq_ok h
  obtain ⟨hav, hsG⟩ := emit_eq_ok hG
  dsimp only at hsG
  subst hsG
  obtain ⟨u5, sH, hH, h⟩ := bindG_eq_ok h
  have hsH := emitInstr_eq_ok hH
  dsimp only at hsH
  subst hsH
  have hs' := positionAtEnd_eq_ok h
  dsimp only at hs'
  have hfbnotin : s1.nextBlock ∉ blockIds s1.blocks := by
    intro hm
    have := hwf1.1 _ hm
    omega
  have hcbnotin : s1.nextBlock + 1 ∉ blockIds (s1.blocks ++ [(s1.nextBlock, [])]) := by
    rw [blockIds_append]
    simp only [List.mem_append]
    rintro (hm | hm)
    · have := hwf1.1 _ hm
      omega
    · simp only [blockIds, List.map_cons, List.map_nil, List.mem_singleton] at hm
      omega
  have hfail : getBlock s' s1.nextBlock
      = [.callPrintf s1.nextVal (.globalStr (assertDiag message)) [],
         .callAbort (s1.nextVal + 1),
         .unreachableTerm] := by
    rw [hs', getBlock_eq_blocksGet]
    dsimp only
    rw [blocksGet_appendToBlock_mem _ _ _
        (by rw [blockIds_appendToBlock, blockIds_appendToBlock, blockIds_appendToBlock,
              blockIds_append, blockIds_append]
            exact List.mem_append_left _ (List.mem_append_right _ (by simp [blockIds]))),
      blocksGet_appendToBlock_mem _ _ _
        (by rw [blockIds_appendToBlock, blockIds_appendToBlock,
              blockIds_append, blockIds_append]
            exact List.mem_append_left _ (List.mem_append_right _ (by simp [blockIds]))),
      blocksGet_appendToBlock_mem _ _ _
        (by rw [blockIds_appendToBlock, blockIds_append, blockIds_append]
            exact List.mem_append_left _ (List.mem_append_right _ (by simp [blockIds]))),
      blocksGet_appendToBlock_ne _ _ _ _ (by omega : s1.nextBlock ≠ s1.current),
      blocksGet_append_left _ _ _
        (by simp only [blockIds, List.map_cons, List.map_nil, List.mem_singleton]; omega),
      blocksGet_append_right _ _ _ hfbnotin,
      blocksGet_cons_self]
    rfl
  refine ⟨condV, s1, h1, ?_, hfail, ?_, ?_, ?_⟩
  · rw [hs', getBlock_eq_blocksGet, getBlock_eq_blocksGet]
    dsimp only
    rw [blocksGet_appendToBlock_ne _ _ _ _ (by omega : s1.current ≠ s1.nextBlock),
      blocksGet_appendToBlock_ne _ _ _ _ (by omega : s1.current ≠ s1.nextBlock),
      blocksGet_appendToBlock_ne _ _ _ _ (by omega : s1.current ≠ s1.nextBlock),
      blocksGet_appendToBlock_mem _ _ _
        (by rw [blockIds_append, blockIds_append]
            exact List.mem_append_left _ (List.mem_append_left _ hwf1.2)),
      blocksGet_append_left _ _ _
        (by simp only [blockIds, List.map_cons, List.map_nil, List.mem_singleton]; omega),
      blocksGet_append_left _ _ _
        (by simp only [blockIds, List.map_cons, List.map_nil, List.mem_singleton]; omega)]
  · rw [hfail]
    rfl
  · rw [hs']
  · rw [hs', getBlock_eq_blocksGet]
    dsimp only
    rw [blocksGet_appendToBlock_ne _ _ _ _
        (by omega : s1.nextBlock + 1 ≠ s1.nextBlock),
      blocksGet_appendToBlock_ne _ _ _ _
        (by omega : s1.nextBlock + 1 ≠ s1.nextBlock),
      blocksGet_appendToBlock_ne _ _ _ _
        (by omega : s1.nextBlock + 1 ≠ s1.nextBlock),
      blocksGet_appendToBlock_ne _ _ _ _
        (by omega : s1.nextBlock + 1 ≠ s1.current),
      blocksGet_append_right _ _ _ hcbnotin,
      blocksGet_cons_self]

/-- Concrete run backing `C9_assert`: `assert true : "m"` compiled from a
one-block state with the libc primitives declared. -/
theorem C9_assert_witness :
    ∃ condV s1,
      compileBoolExpression (ir.BooleanExpression.Literal true)
        (⟨[(0, [])], 0, 0, 1, [], ["printf", "abort"], []⟩ : GenState) = .ok (condV, s1) ∧
      getBlock (⟨[(0, [.condBr (.intConst 1 1) 2 1]),
          (1, [.callPrintf 0 (.globalStr ("Assert failed: " ++ "m" ++ "\n")) [],
               .callAbort 1, .unreachableTerm]),
          (2, [])], 2, 2, 3, [], ["printf", "abort"], []⟩ : GenState) s1.current
        = getBlock s1 s1.current ++ [.condBr condV (s1.nextBlock + 1) s1.nextBlock] ∧
      getBlock (⟨[(0, [.condBr (.intConst 1 1) 2 1]),
          (1, [.callPrintf 0 (.globalStr ("Assert failed: " ++ "m" ++ "\n")) [],
               .callAbort 1, .unreachableTerm]),
          (2, [])], 2, 2, 3, [], ["printf", "abort"], []⟩ : GenState) s1.nextBlock
        = [.callPrintf s1.nextVal (.globalStr ("Assert failed: " ++ "m" ++ "\n")) [],
           .callAbort (s1.nextVal + 1),
           .unreachableTerm] ∧
      (getBlock (⟨[(0, [.condBr (.intConst 1 1) 2 1]),
          (1, [.callPrintf 0 (.globalStr ("Assert failed: " ++ "m" ++ "\n")) [],
               .callAbort 1, .unreachableTerm]),
          (2, [])], 2, 2, 3, [], ["printf", "abort"], []⟩ : GenState) s1.nextBlock).getLast?
        = some .unreachableTerm ∧
      (⟨[(0, [.condBr (.intConst 1 1) 2 1]),
          (1, [.callPrintf 0 (.globalStr ("Assert failed: " ++ "m" ++ "\n")) [],
               .callAbort 1, .unreachableTerm]),
          (2, [])], 2, 2, 3, [], ["printf", "abort"], []⟩ : GenState).current
        = s1.nextBlock + 1 ∧
      getBlock (⟨[(0, [.condBr (.intConst 1 1) 2 1]),
          (1, [.callPrintf 0 (.globalStr ("Assert failed: " ++ "m" ++ "\n")) [],
               .callAbort 1, .unreachableTerm]),
          (2, [])], 2, 2, 3, [], ["printf", "abort"], []⟩ : GenState) (s1.nextBlock + 1)
        = [] :=
  C9_assert (ir.BooleanExpression.Literal true) (some "m")
    ⟨[(0, [])], 0, 0, 1, [], ["printf", "abort"], []⟩
    ⟨[(0, [.condBr (.intConst 1 1) 2 1]),
      (1, [.callPrintf 0 (.globalStr ("Assert failed: " ++ "m" ++ "\n")) [],
           .callAbort 1, .unreachableTerm]),
      (2, [])], 2, 2, 3, [], ["printf", "abort"], []⟩
    (by refine ⟨?_, ?_⟩ <;> decide) rfl

/-- C4: an IR boolean `&&`/`||` expression compiles to an explicit control-flow
split.  The left operand is evaluated first; its block ends with a conditional
branch whose non-absorbing path enters the right block — in which the right
operand is compiled, its value stored into the slot the resolver reserved for
the expression, followed by a jump to the continuation block — and whose other
path enters a short-circuit block holding exactly a store of the absorbing
constant (false for `&&`, true for `||`) and the jump: no instruction of the
right operand is in it.  Compilation resumes in the continuation block, whose
single load of the reserved slot is the expression's value.  When the left
operand is the statically absorbing literal it compiles to the constant with
no state change, so the right operand's code sits only in the never-taken
branch target. -/
theorem C4_short_circuit (resultIdentifier : ir.VariableIdentifier)
    (left : ir.BooleanExpression) (op : ir.BooleanOperator) (right : ir.BooleanExpression)
    (s s' : GenState) (v : Value)
    (hwf : WFGen s)
    (h : compileBoolExpression (.Operator resultIdentifier left op right) s = .ok (v, s')) :
    ∃ lv s1 ptr rv s3,
      compileBoolExpression left s = .ok (lv, s1) ∧
      (s1.local_vars.find? (fun p => p.1 = resultIdentifier.id)).map (fun p => p.2)
        = some ptr ∧
      getBlock s' s1.current = getBlock s1 s1.current ++
        [(match op with
          | .And => Instr.condBr lv s1.nextBlock (s1.nextBlock + 1)
          | .Or => Instr.condBr lv (s1.nextBlock + 1) s1.nextBlock)] ∧
      compileBoolExpression right
        (⟨appendToBlock (s1.blocks ++ [(s1.nextBlock, [])] ++ [(s1.nextBlock + 1, [])] ++
              [(s1.nextBlock + 1 + 1, [])])
            s1.current (match op with
              | .And => Instr.condBr lv s1.nextBlock (s1.nextBlock + 1)
              | .Or => Instr.condBr lv (s1.nextBlock + 1) s1.nextBlock),
          s1.nextBlock, s1.nextVal, s1.nextBlock + 1 + 1 + 1,
          s1.local_vars, s1.declaredFns, s1.fns⟩ : GenState) = .ok (rv, s3) ∧
      getBlock s' s3.current
        = getBlock s3 s3.current ++ [.store ptr rv, .br (s1.nextBlock + 1 + 1)] ∧
      getBlock s' (s1.nextBlock + 1)
        = [.store ptr (match op with
            | .And => Value.intConst 1 0
            | .Or => Value.intConst 1 1), .br (s1.nextBlock + 1 + 1)] ∧
      s'.current = s1.nextBlock + 1 + 1 ∧
      getBlock s' (s1.nextBlock + 1 + 1) = [.load s3.nextVal ptr] ∧
      v = .ref s3.nextVal ∧
      ((left = .Literal false ∧ op = .And) → lv = .intConst 1 0 ∧ s1 = s) ∧
      ((left = .Literal true ∧ op = .Or) → lv = .intConst 1 1 ∧ s1 = s) := by
  simp only [compileBoolExpression, genm_bind_def] at h
  obtain ⟨lv, s1, h1, h2⟩ := bindG_eq_ok h
  obtain ⟨hext1, hwf1⟩ := compileBoolExpression_ext left s lv s1 h1 hwf
  have hlit : ∀ bl : Bool, left = .Literal bl →
      lv = .intConst 1 (if bl then 1 else 0) ∧ s1 = s := by
    intro bl hbl
    subst hbl
    simp only [compileBoolExpression, genm_pure_def] at h1
    obtain ⟨rfl, rfl⟩ := pureG_eq_ok h1
    exact ⟨rfl, rfl⟩
  cases op with
  | And =>
      obtain ⟨ptr, rv, s3, hfind, hrec, hbr, hrs, hshort, hcur, hcont, hv, _, _⟩ :=
        operator_tail_spec right (compileBoolExpression_ext right)
          resultIdentifier (fun a b => Instr.condBr lv a b) (Value.intConst 1 0)
          s1 v s' h2 hwf1
      refine ⟨lv, s1, ptr, rv, s3, h1, hfind, hbr, hrec, hrs, hshort, hcur, hcont, hv,
        ?_, ?_⟩
      · rintro ⟨hbl, -⟩
        exact hlit false hbl
      · rintro ⟨-, hop⟩
        cases hop
  | Or =>
      obtain ⟨ptr, rv, s3, hfind, hrec, hbr, hrs, hshort, hcur, hcont, hv, _, _⟩ :=
        operator_tail_spec right (compileBoolExpression_ext right)
          resultIdentifier (fun a b => Instr.condBr lv b a) (Value.intConst 1 1)
          s1 v s' h2 hwf1
      refine ⟨lv, s1, ptr, rv, s3, h1, hfind, hbr, hrec, hrs, hshort, hcur, hcont, hv,
        ?_, ?_⟩
      · rintro ⟨-, hop⟩
        cases hop
      · rintro ⟨hbl, -⟩
        exact hlit true hbl

/-- Concrete run backing `C4_short_circuit`: `true && false` with slot `%0`
reserved at pointer `ref 5`, from a one-block state. -/
theorem C4_short_circuit_witness :
    ∃ lv s1 ptr rv s3,
      compileBoolExpression (ir.BooleanExpression.Literal true)
        (⟨[(0, [])], 0, 0, 1, [(0, .ref 5)], [], []⟩ : GenState) = .ok (lv, s1) ∧
      (s1.local_vars.find? (fun p => p.1 = (⟨0⟩ : ir.VariableIdentifier).id)).map
          (fun p => p.2) = some ptr ∧
      getBlock (⟨[(0, [.condBr (.intConst 1 1) 1 2]),
          (1, [.store (.ref 5) (.intConst 1 0), .br 3]),
          (2, [.store (.ref 5) (.intConst 1 0), .br 3]),
          (3, [.load 0 (.ref 5)])], 3, 1, 4, [(0, .ref 5)], [], []⟩ : GenState) s1.current
        = getBlock s1 s1.current ++ [Instr.condBr lv s1.nextBlock (s1.nextBlock + 1)] ∧
      compileBoolExpression (ir.BooleanExpression.Literal false)
        (⟨appendToBlock (s1.blocks ++ [(s1.nextBlock, [])] ++ [(s1.nextBlock + 1, [])] ++
              [(s1.nextBlock + 1 + 1, [])])
            s1.current (Instr.condBr lv s1.nextBlock (s1.nextBlock + 1)),
          s1.nextBlock, s1.nextVal, s1.nextBlock + 1 + 1 + 1,
          s1.local_vars, s1.declaredFns, s1.fns⟩ : GenState) = .ok (rv, s3) ∧
      getBlock (⟨[(0, [.condBr (.intConst 1 1) 1 2]),
          (1, [.store (.ref 5) (.intConst 1 0), .br 3]),
          (2, [.store (.ref 5) (.intConst 1 0), .br 3]),
          (3, [.load 0 (.ref 5)])], 3, 1, 4, [(0, .ref 5)], [], []⟩ : GenState) s3.current
        = getBlock s3 s3.current ++ [.store ptr rv, .br (s1.nextBlock + 1 + 1)] ∧
      getBlock (⟨[(0, [.condBr (.intConst 1 1) 1 2]),
          (1, [.store (.ref 5) (.intConst 1 0), .br 3]),
          (2, [.store (.ref 5) (.intConst 1 0), .br 3]),
          (3, [.load 0 (.ref 5)])], 3, 1, 4, [(0, .ref 5)], [], []⟩ : GenState)
          (s1.nextBlock + 1)
        = [.store ptr (Value.intConst 1 0), .br (s1.nextBlock + 1 + 1)] ∧
      (⟨[(0, [.condBr (.intConst 1 1) 1 2]),
          (1, [.store (.ref 5) (.intConst 1 0), .br 3]),
          (2, [.store (.ref 5) (.intConst 1 0), .br 3]),
          (3, [.load 0 (.ref 5)])], 3, 1, 4, [(0, .ref 5)], [], []⟩ : GenState).current
        = s1.nextBlock + 1 + 1 ∧
      getBlock (⟨[(0, [.condBr (.intConst 1 1) 1 2]),
          (1, [.store (.ref 5) (.intConst 1 0), .br 3]),
          (2, [.store (.ref 5) (.intConst 1 0), .br 3]),
          (3, [.load 0 (.ref 5)])], 3, 1, 4, [(0, .ref 5)], [], []⟩ : GenState)
          (s1.nextBlock + 1 + 1)
        = [.load s3.nextVal ptr] ∧
      Value.ref 0 = .ref s3.nextVal ∧
      ((ir.BooleanExpression.Literal true = ir.BooleanExpression.Literal false ∧
          ir.BooleanOperator.And = ir.BooleanOperator.And) →
        lv = .intConst 1 0 ∧ s1 = (⟨[(0, [])], 0, 0, 1, [(0, .ref 5)], [], []⟩ : GenState)) ∧
      ((ir.BooleanExpression.Literal true = ir.BooleanExpression.Literal true ∧
          ir.BooleanOperator.And = ir.BooleanOperator.Or) →
        lv = .intConst 1 1 ∧ s1 = (⟨[(0, [])], 0, 0, 1, [(0, .ref 5)], [], []⟩ : GenState)) :=
  C4_short_circuit ⟨0⟩ (ir.BooleanExpression.Literal true) ir.BooleanOperator.And
    (ir.BooleanExpression.Literal false)
    ⟨[(0, [])], 0, 0, 1, [(0, .ref 5)], [], []⟩
    ⟨[(0, [.condBr (.intConst 1 1) 1 2]),
      (1, [.store (.ref 5) (.intConst 1 0), .br 3]),
      (2, [.store (.ref 5) (.intConst 1 0), .br 3]),
      (3, [.load 0 (.ref 5)])], 3, 1, 4, [(0, .ref 5)], [], []⟩
    (.ref 0)
    (by refine ⟨?_, ?_⟩ <;> decide) rfl

end VivScript
